import Mathlib

/-!
Verification development for the DWT/DCT watermark codec
(`backend/core/wm_dwt_dct.py` of the Numerus steganography repository).

The discrete parts of the codec are embedded faithfully:
payload framing (length ‖ message ‖ CRC-32), capacity geometry,
replication selection, the seeded slot permutation (modelled as an
explicit pure function parameter `perm`, mirroring
`np.random.default_rng(seed)` / `rng.shuffle`, whose output is a
deterministic function of the seed by numpy's documented contract),
the per-block coefficient update rule over exact rationals, the
header-driven extraction loop, CRC verification, confidence scoring,
and the accelerated/fallback backend-selection loops.

The floating-point transform kernels (`cv2.cvtColor`, `pywt.dwt2`,
`cv2.dct`) are abstracted: extraction is parameterised by an oracle
`ℕ → Bool × ℚ` giving, per block index, the comparison bit and margin
that `_extract_bit_from_block` reads off that block, and embedding by
symbolic array values.
-/

set_option maxHeartbeats 1000000

set_option maxRecDepth 100000

/-- Module-level constants of `wm_dwt_dct.py` (lines 24-27). -/
def DEFAULT_BLOCK_SIZE : ℕ := 8

def MAX_MESSAGE_BYTES : ℕ := 4096

def PAYLOAD_OVERHEAD_BYTES : ℕ := 8

def REPLICATION_FACTOR : ℕ := 3

/-- The distinct `WatermarkingError` raise sites of `wm_dwt_dct.py`
(each constructor corresponds to one error message in the source). -/
inductive WErr where
  /-- "Message too long. Max supported size is 4096 bytes." (line 48) -/
  | messageTooLong
  /-- "No watermark payload to embed." (line 134) -/
  | noPayload
  /-- "Image too small for watermark embedding." (lines 169, 207) -/
  | imageTooSmall
  /-- "Message too large for host image. ..." (line 220) -/
  | payloadTooLargeForImage
  /-- "Image too small to contain replicated watermark data." (lines 279, 298) -/
  | replicatedTooSmall
  /-- "Decoded watermark length is out of bounds." (line 324) -/
  | corruptHeader
  /-- "Failed to recover watermark header." (line 331) -/
  | missingHeader
  /-- "Insufficient data to recover embedded message." (line 334) -/
  | insufficientData
  /-- bare "Failed to recover watermark." (line 448) -/
  | failedToRecover
  /-- "No watermark recovered." (line 419, accelerated decode branch) -/
  | imwNoWatermark
  /-- "Recovered payload too small." (line 422, accelerated decode branch) -/
  | imwPayloadTooSmall
deriving DecidableEq, Repr

/-! ### Bit and byte helpers (`np.unpackbits` / `np.packbits` / `int.from_bytes`) -/

/-- Big-endian (MSB-first) value of a bit list, as read by
`int.from_bytes(np.packbits(bits), "big")`. -/
def bitsToNat (bs : List Bool) : ℕ :=
  bs.foldl (fun acc b => 2 * acc + (if b then 1 else 0)) 0

/-- MSB-first bits of one byte (`np.unpackbits` on a single `uint8`). -/
def byteToBits (b : ℕ) : List Bool :=
  (List.range 8).map (fun i => b.testBit (7 - i))

/-- MSB-first bit sequence of a byte string (`np.unpackbits`, line 54). -/
def bytesToBits (bs : List ℕ) : List Bool :=
  bs.foldr (fun b acc => byteToBits b ++ acc) []

/-- `int.from_bytes(bs, "big", signed=False)`. -/
def fromBytesBE (bs : List ℕ) : ℕ :=
  bs.foldl (fun acc b => 256 * acc + b) 0

/-- `n.to_bytes(4, "big", signed=False)`. -/
def toBytesBE4 (n : ℕ) : List ℕ :=
  [n / 2 ^ 24 % 256, n / 2 ^ 16 % 256, n / 2 ^ 8 % 256, n % 256]

/-- Fuel-indexed chunking; the fuel only serves to make the recursion
structural, any fuel at least the list length gives the same result. -/
def chunkListFuel (k : ℕ) : ℕ → List α → List (List α)
  | _, [] => []
  | 0, _ :: _ => []
  | fuel + 1, x :: xs =>
    if k = 0 then []
    else (x :: xs).take k :: chunkListFuel k fuel ((x :: xs).drop k)

/-- Split a list into consecutive chunks of size `k`
(`ndarray.reshape(-1, k)` row-major; the final chunk may be short). -/
def chunkList (k : ℕ) (l : List α) : List (List α) :=
  chunkListFuel k l.length l

/-- Byte value of one (possibly short) bit chunk, as produced by
`np.packbits` (zero-padded at the least-significant end). -/
def byteVal (c : List Bool) : ℕ := bitsToNat c * 2 ^ (8 - c.length)

/-- `np.packbits(bits).tobytes()` (lines 321, 337). -/
def packBits (bs : List Bool) : List ℕ := (chunkList 8 bs).map byteVal

/-! ### CRC-32 (`zlib.crc32(message) & 0xFFFFFFFF`) -/

/-- One bit step of the reflected CRC-32 (polynomial `0xEDB88320`). -/
def crc32Bit (c : ℕ) : ℕ :=
  if c % 2 = 1 then (c / 2) ^^^ 0xEDB88320 else c / 2

/-- One byte step of CRC-32. -/
def crc32Byte (c b : ℕ) : ℕ :=
  (List.range 8).foldl (fun acc _ => crc32Bit acc) (c ^^^ (b % 256))

/-- `zlib.crc32(bytes) & 0xFFFFFFFF`. -/
def crc32 (bytes : List ℕ) : ℕ :=
  (bytes.foldl crc32Byte 0xFFFFFFFF) ^^^ 0xFFFFFFFF

/-! ### Payload codec (`_build_payload`, lines 46-57) -/

/-- Framed payload bits of a message: 4-byte big-endian length, the
message bytes, then the 4-byte big-endian CRC-32, unpacked MSB-first.
Fails when the message exceeds `MAX_MESSAGE_BYTES`. -/
def buildPayload (message : List ℕ) : Except WErr (List Bool) :=
  if MAX_MESSAGE_BYTES < message.length then .error .messageTooLong
  else .ok (bytesToBits (toBytesBE4 message.length ++ message ++ toBytesBE4 (crc32 message)))

/-! ### Transform-surface geometry (`_pad_to_even`, `pywt.dwt2`, `_pad_to_block`) -/

/-- Dimension after `_pad_to_even` (line 70-76): pad odd sizes by one. -/
def evenPad (n : ℕ) : ℕ := n + n % 2

/-- Dimension after `_pad_to_block` (lines 60-67): pad up to a multiple of `k`. -/
def padToMultiple (n k : ℕ) : ℕ := n + (k - n % k) % k

/-- One dimension of the Haar `LL` subband (`pywt.dwt2` with
periodization on an even-sized input halves each dimension). -/
def llDim (n : ℕ) : ℕ := evenPad n / 2

/-- Number of `block`-sized tiles along one original image dimension. -/
def blocksCount (n block : ℕ) : ℕ := padToMultiple (llDim n) block / block

/-- `num_blocks = blocks_h * blocks_w` for an `h × w` frame (lines 174-176,
212-214, 284-286). -/
def numBlocksOf (h w block : ℕ) : ℕ := blocksCount h block * blocksCount w block

/-! ### Capacity estimation (`_compute_capacity_metrics`, `estimate_capacity`) -/

/-- Clamp used by `_compute_capacity_metrics`: `max(0, min(4096, x))`. -/
def capacityClamp (x : ℤ) : ℤ := max 0 (min (MAX_MESSAGE_BYTES : ℤ) x)

/-- `capacity_bits // 8 - PAYLOAD_OVERHEAD_BYTES` (line 141), over ℤ since
Python subtraction may go negative. -/
def capacityBase (numBlocks : ℕ) : ℤ :=
  ((numBlocks / 8 : ℕ) : ℤ) - (PAYLOAD_OVERHEAD_BYTES : ℤ)

/-- The `max_message_bytes_per_replication` dictionary (lines 144-148):
entries `(r, clamp(capacity_bits // r // 8 - 8))` for `r = 1..3`. -/
def perReplicationBytes (numBlocks : ℕ) : List (ℕ × ℤ) :=
  (List.range REPLICATION_FACTOR).map (fun i =>
    (i + 1, capacityClamp (((numBlocks / (i + 1) / 8 : ℕ) : ℤ) - (PAYLOAD_OVERHEAD_BYTES : ℤ))))

/-- Capacity report of `estimate_capacity` (lines 150-189). -/
structure CapacityMetrics where
  capacity_bits : ℕ
  max_message_bytes : ℤ
  per_replication : List (ℕ × ℤ)
  block_size : ℕ
  width : ℕ
  height : ℕ
  even_width : ℕ
  even_height : ℕ
deriving DecidableEq, Repr

/-- `estimate_capacity(img, block_size)` (lines 157-189) as a function of
the frame geometry: checks the even-padded luma plane against the block
size, then reports the block-count capacity metrics. -/
def estimateCapacity (h w block : ℕ) : Except WErr CapacityMetrics :=
  if evenPad h < block ∨ evenPad w < block then .error .imageTooSmall
  else
    let nb := numBlocksOf h w block
    .ok { capacity_bits := nb
          max_message_bytes := capacityClamp (capacityBase nb)
          per_replication := perReplicationBytes nb
          block_size := block
          width := w
          height := h
          even_width := evenPad w
          even_height := evenPad h }

/-! ### Replication selection (`_select_replication`, lines 132-136) -/

/-- `_select_replication(bit_count, capacity)`: fails on an empty payload,
otherwise `max(1, min(3, max(1, capacity // bit_count)))`. -/
def selectReplication (bitCount capacity : ℕ) : Except WErr ℕ :=
  if bitCount = 0 then .error .noPayload
  else .ok (max 1 (min REPLICATION_FACTOR (max 1 (capacity / bitCount))))

/-! ### Per-block bit embedding (`_embed_bit_in_block`, lines 88-115) -/

/-- DCT coefficient matrix of one block, exposing the two coefficients the
codec manipulates: `a` at position (0, 1), `b` at position (1, 0), and the
remaining coefficients (in exact rational arithmetic; the float32 DCT
values themselves come from the abstracted transform). -/
structure DctBlock where
  a : ℚ
  b : ℚ
  others : List ℚ
deriving DecidableEq, Repr

/-- `energy = float(np.mean(np.abs(dct))) + 1e-6` (line 99). -/
def energyOf (blk : DctBlock) : ℚ :=
  (|blk.a| + |blk.b| + (blk.others.map (fun x => |x|)).sum) / ((2 + blk.others.length : ℕ) : ℚ)
    + 1 / 1000000

/-- `margin = max(strength * 4.0, strength * 0.25 * energy, 3.0)` (line 100). -/
def marginOf (blk : DctBlock) (strength : ℚ) : ℚ :=
  max (strength * 4) (max (strength * (1 / 4) * energyOf blk) 3)

/-- The coefficient update of `_embed_bit_in_block` (lines 101-113): push
`a` and `b` apart symmetrically by `delta / 2` each whenever the ordering
required by `bit` does not already hold strictly. -/
def embedBitInBlock (blk : DctBlock) (bit : Bool) (strength : ℚ) : DctBlock :=
  let margin := marginOf blk strength
  if bit then
    if blk.a ≤ blk.b then
      let delta := (blk.b - blk.a) + margin
      { blk with a := blk.a + delta / 2, b := blk.b - delta / 2 }
    else blk
  else
    if blk.b ≤ blk.a then
      let delta := (blk.a - blk.b) + margin
      { blk with a := blk.a - delta / 2, b := blk.b + delta / 2 }
    else blk

/-! ### Extraction (`_extract_bit_from_block`, `_extract_with_replication`) -/

/-- Successful result of `_extract_with_replication` (lines 353-363): the
decoded message bytes together with the metadata fields that are exact
(rational/integer) data.  The `confidence` entry of the Python metadata
dictionary is the function `confidenceOf` below applied to `crc_ok` and
`avg_margin`. -/
structure ExtractOk where
  message : List ℕ
  bits_read : ℕ
  crc_ok : Bool
  message_length : ℕ
  replication : ℕ
  avg_margin : ℚ
deriving DecidableEq, Repr

/-- Majority vote and mean margin of one replication group (lines 301-317).
`oracle i` is the `(bit, margin)` pair `_extract_bit_from_block` reads from
block index `i`; the floating-point DCT itself is thus abstracted. -/
def groupStep (oracle : ℕ → Bool × ℚ) (replication : ℕ) (g : List ℕ) : Bool × ℚ :=
  let votes := g.map (fun i => (oracle i).1)
  let gmargins := g.map (fun i => (oracle i).2)
  let threshold := replication / 2 + 1
  (decide (threshold ≤ (votes.count true)),
   gmargins.sum / ((gmargins.length : ℕ) : ℚ))

/-- Majority-bit stream of a list of groups. -/
def groupBits (oracle : ℕ → Bool × ℚ) (replication : ℕ) (gs : List (List ℕ)) : List Bool :=
  gs.map (fun g => (groupStep oracle replication g).1)

/-- Mean-margin stream of a list of groups. -/
def groupMargins (oracle : ℕ → Bool × ℚ) (replication : ℕ) (gs : List (List ℕ)) : List ℚ :=
  gs.map (fun g => (groupStep oracle replication g).2)

/-- The `for group in groups` loop of `_extract_with_replication`
(lines 301-328), with its header parse, `CorruptHeader` raise, and
early `break` once `expected_total_bits` bits are collected.  The
`message_len < 0` half of the source's bound check cannot fire for an
unsigned 32-bit read and is dropped. -/
def decodeLoop (oracle : ℕ → Bool × ℚ) (replication : ℕ) :
    List (List ℕ) → List Bool → List ℚ → Option ℕ →
    Except WErr (List Bool × List ℚ × Option ℕ)
  | [], bits, margins, expected => .ok (bits, margins, expected)
  | g :: rest, bits, margins, expected =>
    let step := groupStep oracle replication g
    let bits2 := bits ++ [step.1]
    let margins2 := margins ++ [step.2]
    match expected with
    | none =>
      if 32 ≤ bits2.length then
        let messageLen := bitsToNat (bits2.take 32)
        if MAX_MESSAGE_BYTES < messageLen then .error .corruptHeader
        else
          let e := 8 * (4 + messageLen + 4)
          if e ≤ bits2.length then .ok (bits2, margins2, some e)
          else decodeLoop oracle replication rest bits2 margins2 (some e)
      else decodeLoop oracle replication rest bits2 margins2 none
    | some e =>
      if e ≤ bits2.length then .ok (bits2, margins2, some e)
      else decodeLoop oracle replication rest bits2 margins2 (some e)

/-- `_extract_with_replication(img, seed, block_size, replication)`
(lines 265-363).  `perm seed num_blocks` models the array `indices`
after `rng.shuffle` (a pure function of the seed and the block count);
`oracle` models the per-block bit/margin reads; `h`, `w` are the frame
dimensions that drive the geometry. -/
def extractWithReplication (oracle : ℕ → Bool × ℚ) (perm : ℕ → ℕ → List ℕ)
    (h w seed block replication : ℕ) : Except WErr ExtractOk :=
  if evenPad h < block ∨ evenPad w < block then .error .replicatedTooSmall
  else
    let numBlocks := numBlocksOf h w block
    let indices := perm seed numBlocks
    let usable := numBlocks / replication * replication
    if usable = 0 then .error .replicatedTooSmall
    else
      let groups := chunkList replication (indices.take usable)
      match decodeLoop oracle replication groups [] [] none with
      | .error e => .error e
      | .ok (bits, margins, expected) =>
        match expected with
        | none => .error .missingHeader
        | some e =>
          if bits.length < e then .error .insufficientData
          else
            let payloadBytes := packBits (bits.take e)
            let messageLength := fromBytesBE (payloadBytes.take 4)
            let messageBytes := (payloadBytes.drop 4).take messageLength
            let checksum := fromBytesBE ((payloadBytes.drop (4 + messageLength)).take 4)
            let crcOk := decide (crc32 messageBytes = checksum)
            let avgMargin := if margins = [] then 0
              else margins.sum / ((margins.length : ℕ) : ℚ)
            .ok { message := messageBytes
                  bits_read := e
                  crc_ok := crcOk
                  message_length := messageLength
                  replication := replication
                  avg_margin := avgMargin }

/-- Confidence entry of the fallback metadata (line 351):
`1.0 if crc_ok else 1 / (1 + exp(-avg_margin / 10))`. -/
noncomputable def confidenceOf (crcOk : Bool) (avgMargin : ℚ) : ℝ :=
  if crcOk then 1 else 1 / (1 + Real.exp (-((avgMargin : ℝ) / 10)))

/-! ### Public decode API (`extract`, lines 402-448) -/

/-- Decoded result of `extract`: either the accelerated (imwatermark)
branch's message and metadata (lines 429-435) or the fallback result. -/
inductive ExtractResult where
  | imw (message : List ℕ) (crcOk : Bool) (messageLength : ℕ)
  | fallback (out : ExtractOk)
deriving DecidableEq, Repr

/-- Confidence reported in the metadata of an extraction result:
`1.0 if crc_ok else 0.0` on the accelerated branch (line 433), the
sigmoid-of-margin score on the fallback branch (line 351). -/
noncomputable def resultConfidence : ExtractResult → ℝ
  | .imw _ crcOk _ => if crcOk then 1 else 0
  | .fallback out => confidenceOf out.crc_ok out.avg_margin

/-- Post-processing of the accelerated decoder's recovered bytes
(lines 418-428): reject empty or short payloads, then slice length,
message and checksum and verify the CRC. -/
def imwDecodePost (recovered : List ℕ) : Except WErr ExtractResult :=
  if recovered = [] then .error .imwNoWatermark
  else if recovered.length < 8 then .error .imwPayloadTooSmall
  else
    let messageLength := fromBytesBE (recovered.take 4)
    let messageBytes := (recovered.drop 4).take messageLength
    let checksum := fromBytesBE ((recovered.drop (4 + messageLength)).take 4)
    .ok (.imw messageBytes (decide (crc32 messageBytes = checksum)) messageLength)

/-- `range(n, 0, -1)`: the list `[n, n-1, ..., 1]`. -/
def countdownRange : ℕ → List ℕ
  | 0 => []
  | r + 1 => (r + 1) :: countdownRange r

/-- The fallback retry loop of `extract` (lines 439-448): try each
replication hypothesis in order, recording the last `WatermarkingError`;
on exhaustion re-raise the recorded `last_error`, or the bare generic
error when none was recorded. -/
def fallbackAttempts (oracle : ℕ → Bool × ℚ) (perm : ℕ → ℕ → List ℕ)
    (h w seed block : ℕ) : List ℕ → Option WErr → Except WErr ExtractOk
  | [], lastError =>
    match lastError with
    | some e => .error e
    | none => .error .failedToRecover
  | r :: rest, _ =>
    match extractWithReplication oracle perm h w seed block r with
    | .ok out => .ok out
    | .error e => fallbackAttempts oracle perm h w seed block rest (some e)

/-- The whole fallback section of `extract` (lines 439-448):
`for replication in range(REPLICATION_FACTOR, 0, -1)` with
`last_error` initially unset. -/
def extractFallbackLoop (oracle : ℕ → Bool × ℚ) (perm : ℕ → ℕ → List ℕ)
    (h w seed block : ℕ) : Except WErr ExtractOk :=
  fallbackAttempts oracle perm h w seed block (countdownRange REPLICATION_FACTOR) none

/-- Outcome of the optional accelerated decoder: the import is absent
(`_IMW_AVAILABLE` false), `decoder.decode` raised, or it returned the
given bytes. -/
inductive AccelOutcome where
  | absent
  | failed
  | recovered (bytes : List ℕ)
deriving DecidableEq, Repr

/-- `extract(img, seed, block_size)` (lines 402-448): attempt the
accelerated decoder when available; on any error in that branch fall
through to the replication retry loop. -/
def extract (accel : AccelOutcome) (oracle : ℕ → Bool × ℚ) (perm : ℕ → ℕ → List ℕ)
    (h w seed block : ℕ) : Except WErr ExtractResult :=
  match accel with
  | .recovered bytes =>
    match imwDecodePost bytes with
    | .ok res => .ok res
    | .error _ => (extractFallbackLoop oracle perm h w seed block).map .fallback
  | _ => (extractFallbackLoop oracle perm h w seed block).map .fallback

/-- Projection used to state concrete facts about `Except` results. -/
def okCrc : Except WErr ExtractOk → Option Bool
  | .ok out => some out.crc_ok
  | .error _ => none

/-- Projection to the successful extraction result, if any. -/
def okResult : Except WErr ExtractResult → Option ExtractResult
  | .ok res => some res
  | .error _ => none

/-! ### Slot allocation (lines 224-232 and 288-299) -/

/-- The per-bit block groups used by `_embed_fallback` (lines 224-232):
`indices[:bits.size * replication].reshape(bits.size, replication)`. -/
def embedSlotGroups (perm : ℕ → ℕ → List ℕ) (seed numBlocks bitCount replication : ℕ) :
    List (List ℕ) :=
  chunkList replication ((perm seed numBlocks).take (bitCount * replication))

/-- The groups used by `_extract_with_replication` (lines 288-299):
`indices[:usable_length].reshape(-1, replication)` with
`usable_length = (num_blocks // replication) * replication`. -/
def extractSlotGroups (perm : ℕ → ℕ → List ℕ) (seed numBlocks replication : ℕ) :
    List (List ℕ) :=
  chunkList replication ((perm seed numBlocks).take (numBlocks / replication * replication))

/-! ### Embedding (`_embed_fallback`, lines 192-262)

To settle the frame-effect claims, the numpy arrays touched by
`_embed_fallback` live in an explicit heap of symbolic array values;
each numpy call that allocates a fresh array appends a cell, and each
slice assignment overwrites one cell in place.  The array contents are
symbolic terms, so no floating-point semantics is needed: the claims
concern which cells are written, and that equal inputs give equal
symbolic outputs. -/

/-- Symbolic numpy array values: one constructor per array-producing
operation in `_embed_fallback`. `reconstructY` packages the pure
post-loop chain `_unpad` / `pywt.idwt2` / `_unpad` / `np.clip.astype`
(lines 244-249), which performs no writes to pre-existing arrays. -/
inductive ArrVal where
  /-- the caller's input frame (`img_bgr`), with abstract pixel contents -/
  | frame (data : List ℕ)
  /-- `cv2.cvtColor(..., COLOR_BGR2YCrCb)` (line 202) -/
  | toYCrCb (src : ArrVal)
  /-- `ycbcr[:, :, 0].astype(np.float32)` (line 203) -/
  | lumaF32 (src : ArrVal)
  /-- `np.pad(..., mode="edge")` in `_pad_to_even` (line 75) -/
  | padEven (src : ArrVal)
  /-- `LL` of `pywt.dwt2(..., "haar", mode="periodization")` (line 209) -/
  | dwtLL (src : ArrVal)
  /-- `np.pad` in `_pad_to_block` (line 66) -/
  | padBlock (src : ArrVal) (block : ℕ)
  /-- `ndarray.copy()` (lines 228, 251) -/
  | copy (src : ArrVal)
  /-- the read `LL_embed[y0:y0+bs, x0:x0+bs]` (line 240) -/
  | blockSlice (src : ArrVal) (y0 x0 block : ℕ)
  /-- `_embed_bit_in_block(block, bit, strength)` (line 241) -/
  | embedBlock (blockArr : ArrVal) (bit : Bool) (strength : ℚ)
  /-- the write `LL_embed[y0:y0+bs, x0:x0+bs] = modified` (line 242) -/
  | writeBlock (base : ArrVal) (y0 x0 block : ℕ) (v : ArrVal)
  /-- `_unpad` + `pywt.idwt2` + `_unpad` + `np.clip(...).astype(uint8)`
  (lines 244-249), a pure function of the final `LL` and of `y_even` -/
  | reconstructY (ll : ArrVal) (yEven : ArrVal)
  /-- the write `ycbcr_out[:, :, 0] = y_reconstructed` (line 252) -/
  | setLuma (base : ArrVal) (y : ArrVal)
  /-- `cv2.cvtColor(..., COLOR_YCrCb2BGR)` (line 253) -/
  | toBGR (src : ArrVal)
deriving DecidableEq, Repr

/-- Heap of live numpy arrays; cell indices are array identities. -/
structure Heap where
  arrs : List ArrVal
deriving DecidableEq, Repr

/-- Allocate a fresh array, returning the new heap and the new identity. -/
def allocArr (heap : Heap) (v : ArrVal) : Heap × ℕ :=
  (⟨heap.arrs ++ [v]⟩, heap.arrs.length)

/-- In-place overwrite of an existing array (numpy slice assignment). -/
def writeArr (heap : Heap) (i : ℕ) (v : ArrVal) : Heap :=
  ⟨heap.arrs.set i v⟩

/-- Contents of array `i`, or a default for a dangling identity. -/
def readArrD (heap : Heap) (i : ℕ) : ArrVal :=
  (heap.arrs[i]?).getD (.frame [])

/-- Metadata returned by `_embed_fallback` (lines 255-261). -/
structure EmbedMeta where
  bits_embedded : ℕ
  capacity : ℕ
  block_size : ℕ
  replication : ℕ
deriving DecidableEq, Repr

/-- One iteration of the inner `for index in block_group` loop
(lines 235-242) on the symbolic value of `LL_embed`. -/
def embedGroup (v : ArrVal) (blocksW block : ℕ) (strength : ℚ) (bit : Bool)
    (g : List ℕ) : ArrVal :=
  g.foldl (fun acc index =>
    let row := index / blocksW
    let col := index % blocksW
    let y0 := row * block
    let x0 := col * block
    .writeBlock acc y0 x0 block (.embedBlock (.blockSlice acc y0 x0 block) bit strength)) v

/-- The `for bit, block_group in zip(bits, selected)` loop (lines 234-242):
each iteration mutates the `LL_embed` cell in place. -/
def embedLoop (blocksW block : ℕ) (strength : ℚ) (llId : ℕ) :
    List (Bool × List ℕ) → Heap → Heap
  | [], heap => heap
  | p :: rest, heap =>
    embedLoop blocksW block strength llId rest
      (writeArr heap llId (embedGroup (readArrD heap llId) blocksW block strength p.1 p.2))

/-- `_embed_fallback(img, payload, seed, strength, block_size)`
(lines 192-262) as a heap program over symbolic arrays.  `bits` is
`payload.bits`; `h`, `w` are the frame dimensions.  The local `indices`
array (lines 224-226) is modelled by the pure permutation `perm` — the
shuffle mutates only that freshly created local array. -/
def embedFallbackProg (perm : ℕ → ℕ → List ℕ) (heap : Heap) (imgId : ℕ)
    (bits : List Bool) (seed : ℕ) (strength : ℚ) (block h w : ℕ) :
    Heap × Except WErr (ℕ × EmbedMeta) :=
  let img := readArrD heap imgId
  let ycbcr := ArrVal.toYCrCb img
  let st1 := allocArr heap ycbcr
  let y := ArrVal.lumaF32 ycbcr
  let st2 := allocArr st1.1 y
  let yEven := if h % 2 = 0 ∧ w % 2 = 0 then y else .padEven y
  let st3 := if h % 2 = 0 ∧ w % 2 = 0 then (st2.1, st2.2) else allocArr st2.1 (.padEven y)
  if evenPad h < block ∨ evenPad w < block then (st3.1, .error .imageTooSmall)
  else
    let st4 := allocArr st3.1 (.dwtLL yEven)
    let ll := ArrVal.padBlock (.dwtLL yEven) block
    let st5 := allocArr st4.1 ll
    let numBlocks := numBlocksOf h w block
    match selectReplication bits.length numBlocks with
    | .error e => (st5.1, .error e)
    | .ok replication =>
      if numBlocks < bits.length * replication then
        (st5.1, .error .payloadTooLargeForImage)
      else
        let st6 := allocArr st5.1 (.copy ll)
        let strength2 := max (1 / 20 : ℚ) (min strength 5)
        let blocksW := blocksCount w block
        let pairs := bits.zip (embedSlotGroups perm seed numBlocks bits.length replication)
        let heap7 := embedLoop blocksW block strength2 st6.2 pairs st6.1
        let llFinal := readArrD heap7 st6.2
        let st8 := allocArr heap7 (.copy ycbcr)
        let heap9 := writeArr st8.1 st8.2 (.setLuma (.copy ycbcr) (.reconstructY llFinal yEven))
        let st10 := allocArr heap9 (.toBGR (readArrD heap9 st8.2))
        (st10.1, .ok (st10.2,
          { bits_embedded := bits.length
            capacity := numBlocks
            block_size := block
            replication := replication }))

/-- `embed(img, message, seed, strength, block_size)` (lines 371-399)
with the optional accelerated encoder absent: build the framed payload,
then run the fallback embedder. -/
def embedProg (perm : ℕ → ℕ → List ℕ) (heap : Heap) (imgId : ℕ)
    (message : List ℕ) (seed : ℕ) (strength : ℚ) (block h w : ℕ) :
    Heap × Except WErr (ℕ × EmbedMeta) :=
  match buildPayload message with
  | .error e => (heap, .error e)
  | .ok bits => embedFallbackProg perm heap imgId bits seed strength block h w

/-- Observable outcome of an embed run: the symbolic contents of the
returned output frame together with the metadata. -/
def embedRun (perm : ℕ → ℕ → List ℕ) (heap : Heap) (imgId : ℕ)
    (bits : List Bool) (seed : ℕ) (strength : ℚ) (block h w : ℕ) :
    Except WErr (ArrVal × EmbedMeta) :=
  (embedFallbackProg perm heap imgId bits seed strength block h w).2.map
    (fun p => (readArrD (embedFallbackProg perm heap imgId bits seed strength block h w).1 p.1, p.2))

/-- The pure value computed by `_embed_fallback` for the output frame, as
a function of the input frame's contents and the call arguments alone. -/
def embedOutputVal (perm : ℕ → ℕ → List ℕ) (img : ArrVal) (bits : List Bool)
    (seed : ℕ) (strength : ℚ) (block h w : ℕ) : Except WErr (ArrVal × EmbedMeta) :=
  let ycbcr := ArrVal.toYCrCb img
  let y := ArrVal.lumaF32 ycbcr
  let yEven := if h % 2 = 0 ∧ w % 2 = 0 then y else .padEven y
  if evenPad h < block ∨ evenPad w < block then .error .imageTooSmall
  else
    let numBlocks := numBlocksOf h w block
    match selectReplication bits.length numBlocks with
    | .error e => .error e
    | .ok replication =>
      if numBlocks < bits.length * replication then .error .payloadTooLargeForImage
      else
        let ll := ArrVal.padBlock (.dwtLL yEven) block
        let strength2 := max (1 / 20 : ℚ) (min strength 5)
        let blocksW := blocksCount w block
        let pairs := bits.zip (embedSlotGroups perm seed numBlocks bits.length replication)
        let llFinal := pairs.foldl
          (fun acc p => embedGroup acc blocksW block strength2 p.1 p.2) (ArrVal.copy ll)
        .ok (.toBGR (.setLuma (.copy ycbcr) (.reconstructY llFinal yEven)),
          { bits_embedded := bits.length
            capacity := numBlocks
            block_size := block
            replication := replication })

/-! ### Arithmetic helper lemmas -/

/-- The two clamp orders coincide: `max 0 (min 4096 x) = min 4096 (max 0 x)`. -/
lemma capacityClamp_eq (x : ℤ) : capacityClamp x = min 4096 (max 0 x) := by
  simp only [capacityClamp, MAX_MESSAGE_BYTES]
  omega

lemma capacityClamp_nonneg (x : ℤ) : 0 ≤ capacityClamp x := le_max_left 0 _

/-- C6: for every frame whose even-padded dimensions reach the block size,
`estimate_capacity` succeeds, reports
`max_message_bytes = min(4096, max(0, capacity_bits // 8 - 8))`, reports
`bytes_r = min(4096, max(0, capacity_bits // r // 8 - 8))` for each
replication `r = 1, 2, 3`, every reported value is non-negative, and a
32×32 frame with `block_size = 16` yields `max_message_bytes = 0`. -/
theorem capacity_report (h w block : ℕ) (hh : block ≤ evenPad h) (hw : block ≤ evenPad w) :
    (∃ m, estimateCapacity h w block = .ok m ∧
      m.capacity_bits = numBlocksOf h w block ∧
      m.max_message_bytes
        = min (4096 : ℤ) (max 0 (((m.capacity_bits / 8 : ℕ) : ℤ) - 8)) ∧
      m.per_replication.map Prod.fst = [1, 2, 3] ∧
      (∀ p ∈ m.per_replication,
        p.2 = min (4096 : ℤ) (max 0 (((m.capacity_bits / p.1 / 8 : ℕ) : ℤ) - 8))) ∧
      0 ≤ m.max_message_bytes ∧ (∀ p ∈ m.per_replication, 0 ≤ p.2)) ∧
    (∃ m32, estimateCapacity 32 32 16 = .ok m32 ∧ m32.max_message_bytes = 0) := by
  constructor
  · have hcond : ¬ (evenPad h < block ∨ evenPad w < block) := by omega
    have heq : estimateCapacity h w block = .ok
        { capacity_bits := numBlocksOf h w block
          max_message_bytes := capacityClamp (capacityBase (numBlocksOf h w block))
          per_replication := perReplicationBytes (numBlocksOf h w block)
          block_size := block
          width := w
          height := h
          even_width := evenPad w
          even_height := evenPad h } := by
      unfold estimateCapacity
      rw [if_neg hcond]
    refine ⟨_, heq, rfl, ?_, ?_, ?_, ?_, ?_⟩
    · rw [capacityClamp_eq]
      simp [capacityBase, PAYLOAD_OVERHEAD_BYTES]
    · rfl
    · intro p hp
      simp only [perReplicationBytes, REPLICATION_FACTOR, List.mem_map, List.mem_range] at hp
      obtain ⟨i, hi, rfl⟩ := hp
      rw [capacityClamp_eq]
      simp [PAYLOAD_OVERHEAD_BYTES]
    · exact capacityClamp_nonneg _
    · intro p hp
      simp only [perReplicationBytes, REPLICATION_FACTOR, List.mem_map, List.mem_range] at hp
      obtain ⟨i, hi, rfl⟩ := hp
      exact capacityClamp_nonneg _
  · exact ⟨_, rfl, by decide⟩

/-- Witness for `capacity_report` at a concrete 64×64 frame with the
default block size 8. -/
theorem capacity_report_witness :
    ((8 ≤ evenPad 64 ∧ 8 ≤ evenPad 64) ∧
      ((∃ m, estimateCapacity 64 64 8 = .ok m ∧
        m.capacity_bits = numBlocksOf 64 64 8 ∧
        m.max_message_bytes
          = min (4096 : ℤ) (max 0 (((m.capacity_bits / 8 : ℕ) : ℤ) - 8)) ∧
        m.per_replication.map Prod.fst = [1, 2, 3] ∧
        (∀ p ∈ m.per_replication,
          p.2 = min (4096 : ℤ) (max 0 (((m.capacity_bits / p.1 / 8 : ℕ) : ℤ) - 8))) ∧
        0 ≤ m.max_message_bytes ∧ (∀ p ∈ m.per_replication, 0 ≤ p.2)) ∧
      (∃ m32, estimateCapacity 32 32 16 = .ok m32 ∧ m32.max_message_bytes = 0))) :=
  ⟨⟨by decide, by decide⟩, capacity_report 64 64 8 (by decide) (by decide)⟩

/-- C7: for positive `bit_count`, `_select_replication` returns exactly
`clamp(1, 3, num_blocks // bit_count)`; the slot-overflow condition
`bit_count * replication > num_blocks` checked by `_embed_fallback`
holds precisely when `bit_count > num_blocks`; and for any frame whose
geometry passes the size check, the embedder raises
`PayloadTooLargeForImage` exactly under that condition. -/
theorem slot_allocation_replication (bitCount numBlocks : ℕ) (hbc : 0 < bitCount) :
    selectReplication bitCount numBlocks
        = .ok (max 1 (min 3 (numBlocks / bitCount))) ∧
    (numBlocks < bitCount * (max 1 (min 3 (numBlocks / bitCount)))
        ↔ numBlocks < bitCount) ∧
    (∀ (perm : ℕ → ℕ → List ℕ) (img : ArrVal) (bits : List Bool)
        (seed : ℕ) (strength : ℚ) (block h w : ℕ),
      ¬ (evenPad h < block ∨ evenPad w < block) →
      bits.length = bitCount → numBlocksOf h w block = numBlocks →
      (embedOutputVal perm img bits seed strength block h w
          = .error .payloadTooLargeForImage ↔ numBlocks < bitCount)) := by
  have hsel : selectReplication bitCount numBlocks
      = .ok (max 1 (min 3 (numBlocks / bitCount))) := by
    unfold selectReplication REPLICATION_FACTOR
    rw [if_neg (by omega)]
    congr 1
    generalize numBlocks / bitCount = q
    omega
  have hiff : numBlocks < bitCount * (max 1 (min 3 (numBlocks / bitCount)))
      ↔ numBlocks < bitCount := by
    constructor
    · intro hlt
      by_contra hge
      push_neg at hge
      have hq : 1 ≤ numBlocks / bitCount := (Nat.one_le_div_iff hbc).mpr hge
      have h1 : bitCount * (max 1 (min 3 (numBlocks / bitCount)))
          ≤ bitCount * (numBlocks / bitCount) :=
        Nat.mul_le_mul_left _ (by omega)
      have h2 : bitCount * (numBlocks / bitCount) ≤ numBlocks := Nat.mul_div_le _ _
      exact Nat.lt_irrefl _ (lt_of_lt_of_le hlt (le_trans h1 h2))
    · intro hnb
      rw [Nat.div_eq_of_lt hnb]
      simpa using hnb
  refine ⟨hsel, hiff, ?_⟩
  intro perm img bits seed strength block h w hsz hbits hnb
  simp only [embedOutputVal, if_neg hsz, hbits, hnb, hsel]
  by_cases hover : numBlocks < bitCount
  · rw [if_pos (hiff.mpr hover)]
    simp [hover]
  · rw [if_neg (fun hcon => hover (hiff.mp hcon))]
    simp [hover]

/-- Witness for `slot_allocation_replication` with 64 payload bits and
512 blocks (replication saturates at 3, no overflow). -/
theorem slot_allocation_replication_witness :
    0 < 64 ∧
    (selectReplication 64 512 = .ok (max 1 (min 3 (512 / 64))) ∧
      (512 < 64 * (max 1 (min 3 (512 / 64))) ↔ 512 < 64)) :=
  ⟨by decide, (slot_allocation_replication 64 512 (by decide)).1,
    (slot_allocation_replication 64 512 (by decide)).2.1⟩

/-- C8: per-block embedding postcondition.  With `a`, `b` the DCT
coefficients at (0,1) and (1,0) and
`margin = max(strength*4, strength*0.25*energy, 3)`: embedding bit 1
with `a ≤ b` moves the pair symmetrically so that `a - b = margin`
afterwards; embedding bit 0 with `b ≤ a` moves it so that
`b - a = margin`; when the required ordering already holds strictly the
block is returned unchanged.  The remaining coefficients are never
touched. -/
theorem embed_bit_block_postcondition (blk : DctBlock) (strength : ℚ) :
    ((blk.a ≤ blk.b →
        (embedBitInBlock blk true strength).a - (embedBitInBlock blk true strength).b
            = marginOf blk strength ∧
        (embedBitInBlock blk true strength).a - blk.a
            = blk.b - (embedBitInBlock blk true strength).b ∧
        (embedBitInBlock blk true strength).others = blk.others) ∧
      (blk.b < blk.a → embedBitInBlock blk true strength = blk)) ∧
    ((blk.b ≤ blk.a →
        (embedBitInBlock blk false strength).b - (embedBitInBlock blk false strength).a
            = marginOf blk strength ∧
        blk.a - (embedBitInBlock blk false strength).a
            = (embedBitInBlock blk false strength).b - blk.b ∧
        (embedBitInBlock blk false strength).others = blk.others) ∧
      (blk.a < blk.b → embedBitInBlock blk false strength = blk)) := by
  refine ⟨⟨?_, ?_⟩, ?_, ?_⟩
  · intro hab
    simp only [embedBitInBlock, if_true, if_pos hab]
    refine ⟨by ring, by ring, by trivial⟩
  · intro hba
    simp only [embedBitInBlock, if_true, if_neg (not_le.mpr hba)]
  · intro hba
    simp only [embedBitInBlock, Bool.false_eq_true, if_false, if_pos hba]
    refine ⟨by ring, by ring, by trivial⟩
  · intro hab
    simp only [embedBitInBlock, Bool.false_eq_true, if_false, if_neg (not_le.mpr hab)]

/-- Witness for `embed_bit_block_postcondition` on the block with
`a = 0`, `b = 1`, no further coefficients, `strength = 1`. -/
theorem embed_bit_block_postcondition_witness :
    (0 : ℚ) ≤ 1 ∧
    ((embedBitInBlock ⟨0, 1, []⟩ true 1).a - (embedBitInBlock ⟨0, 1, []⟩ true 1).b
        = marginOf ⟨0, 1, []⟩ 1) :=
  ⟨by norm_num,
    (((embed_bit_block_postcondition ⟨0, 1, []⟩ 1).1.1 (by norm_num)).1)⟩

/-! ### List and chunk lemmas -/

lemma groupBits_cons (oracle : ℕ → Bool × ℚ) (r : ℕ) (g : List ℕ) (gs : List (List ℕ)) :
    groupBits oracle r (g :: gs) = (groupStep oracle r g).1 :: groupBits oracle r gs := rfl

lemma groupMargins_cons (oracle : ℕ → Bool × ℚ) (r : ℕ) (g : List ℕ) (gs : List (List ℕ)) :
    groupMargins oracle r (g :: gs) = (groupStep oracle r g).2 :: groupMargins oracle r gs := rfl

lemma length_groupBits (oracle : ℕ → Bool × ℚ) (r : ℕ) (gs : List (List ℕ)) :
    (groupBits oracle r gs).length = gs.length := List.length_map _ _

lemma length_groupMargins (oracle : ℕ → Bool × ℚ) (r : ℕ) (gs : List (List ℕ)) :
    (groupMargins oracle r gs).length = gs.length := List.length_map _ _

@[simp] lemma chunkListFuel_nil (k f : ℕ) : chunkListFuel k f ([] : List α) = [] := by
  cases f <;> rfl

lemma chunkListFuel_congr (k : ℕ) :
    ∀ (f1 f2 : ℕ) (l : List α), l.length ≤ f1 → l.length ≤ f2 →
      chunkListFuel k f1 l = chunkListFuel k f2 l := by
  intro f1
  induction f1 with
  | zero =>
    intro f2 l h1 h2
    have hnil : l = [] := List.eq_nil_of_length_eq_zero (by omega)
    subst hnil
    cases f2 <;> rfl
  | succ n ih =>
    intro f2 l h1 h2
    cases l with
    | nil => cases f2 <;> rfl
    | cons x xs =>
      cases f2 with
      | zero =>
        simp only [List.length_cons] at h2
        omega
      | succ m =>
        simp only [chunkListFuel]
        by_cases hk : k = 0
        · rw [if_pos hk, if_pos hk]
        · rw [if_neg hk, if_neg hk]
          congr 1
          apply ih
          · simp only [List.length_drop, List.length_cons] at h1 ⊢
            omega
          · simp only [List.length_drop, List.length_cons] at h2 ⊢
            omega

@[simp] lemma chunkList_nil (k : ℕ) : chunkList k ([] : List α) = [] := rfl

/-- Unfolding equation of `chunkList` on a nonempty list. -/
lemma chunkList_eq (k : ℕ) (hk : 0 < k) (l : List α) (hl : l ≠ []) :
    chunkList k l = l.take k :: chunkList k (l.drop k) := by
  cases l with
  | nil => exact absurd rfl hl
  | cons x xs =>
    show chunkListFuel k (x :: xs).length (x :: xs) = _
    simp only [List.length_cons, chunkListFuel]
    rw [if_neg (by omega)]
    congr 1
    show chunkListFuel k xs.length ((x :: xs).drop k)
        = chunkListFuel k ((x :: xs).drop k).length ((x :: xs).drop k)
    apply chunkListFuel_congr
    · simp only [List.length_drop, List.length_cons]
      omega
    · exact le_rfl

/-- A list of length `k * n` splits into exactly `n` chunks. -/
lemma chunkList_length_mul (k : ℕ) (hk : 0 < k) :
    ∀ (n : ℕ) (l : List α), l.length = k * n → (chunkList k l).length = n := by
  intro n
  induction n with
  | zero =>
    intro l hl
    have hnil : l = [] := List.eq_nil_of_length_eq_zero (by simpa using hl)
    subst hnil
    simp [chunkList]
  | succ m ih =>
    intro l hl
    rw [Nat.mul_succ] at hl
    cases l with
    | nil =>
      simp only [List.length_nil] at hl
      generalize hkm : k * m = t at hl
      omega
    | cons x xs =>
      rw [chunkList_eq k hk (x :: xs) (by simp)]
      simp only [List.length_cons]
      rw [ih ((x :: xs).drop k) (by
        simp only [List.length_drop, List.length_cons]
        simp only [List.length_cons] at hl
        generalize hkm : k * m = t at hl ⊢
        omega)]

/-- Taking `a` chunks equals chunking the first `a * k` elements. -/
lemma chunkList_take (k : ℕ) (hk : 0 < k) :
    ∀ (a : ℕ) (l : List α), (chunkList k l).take a = chunkList k (l.take (a * k)) := by
  intro a
  induction a with
  | zero => intro l; simp [chunkList]
  | succ m ih =>
    intro l
    cases l with
    | nil => simp [chunkList]
    | cons x xs =>
      have hk1 : 0 < (m + 1) * k := Nat.mul_pos (Nat.succ_pos m) hk
      have htne : (x :: xs).take ((m + 1) * k) ≠ [] := by
        intro hcon
        have := congrArg List.length hcon
        simp only [List.length_take, List.length_cons, List.length_nil] at this
        omega
      rw [chunkList_eq k hk (x :: xs) (by simp)]
      rw [List.take_succ_cons, ih]
      rw [chunkList_eq k hk ((x :: xs).take ((m + 1) * k)) htne]
      congr 1
      · rw [List.take_take]
        congr 1
        have hle : k ≤ (m + 1) * k := by
          calc k = 1 * k := (one_mul k).symm
            _ ≤ (m + 1) * k := Nat.mul_le_mul_right k (by omega)
        omega
      · rw [List.drop_take]
        congr 1
        rw [Nat.succ_mul, Nat.add_sub_cancel]

/-! ### Arithmetic of the bit and byte encodings -/

lemma bitsToNat_acc (bs : List Bool) :
    ∀ a : ℕ, bs.foldl (fun acc b => 2 * acc + (if b then 1 else 0)) a
      = a * 2 ^ bs.length + bitsToNat bs := by
  induction bs with
  | nil => intro a; simp [bitsToNat]
  | cons b t ih =>
    intro a
    have hbt : bitsToNat (b :: t)
        = (if b then 1 else 0) * 2 ^ t.length + bitsToNat t := by
      rw [show bitsToNat (b :: t)
          = t.foldl (fun acc x => 2 * acc + (if x then 1 else 0))
              (2 * 0 + (if b then 1 else 0)) from rfl]
      rw [ih]
      ring
    simp only [List.foldl_cons, List.length_cons]
    rw [ih, hbt]
    ring

lemma bitsToNat_append (xs ys : List Bool) :
    bitsToNat (xs ++ ys) = bitsToNat xs * 2 ^ ys.length + bitsToNat ys := by
  have hstep : bitsToNat (xs ++ ys)
      = ys.foldl (fun acc b => 2 * acc + (if b then 1 else 0)) (bitsToNat xs) := by
    unfold bitsToNat
    rw [List.foldl_append]
  rw [hstep, bitsToNat_acc]

lemma fromBytesBE_acc (bs : List ℕ) :
    ∀ a : ℕ, bs.foldl (fun acc b => 256 * acc + b) a
      = a * 256 ^ bs.length + fromBytesBE bs := by
  induction bs with
  | nil => intro a; simp [fromBytesBE]
  | cons b t ih =>
    intro a
    have hbt : fromBytesBE (b :: t) = b * 256 ^ t.length + fromBytesBE t := by
      rw [show fromBytesBE (b :: t)
          = t.foldl (fun acc x => 256 * acc + x) (256 * 0 + b) from rfl]
      rw [ih]
      ring
    simp only [List.foldl_cons, List.length_cons]
    rw [ih, hbt]
    ring

lemma fromBytesBE_cons (b : ℕ) (bs : List ℕ) :
    fromBytesBE (b :: bs) = b * 256 ^ bs.length + fromBytesBE bs := by
  rw [show fromBytesBE (b :: bs)
      = bs.foldl (fun acc x => 256 * acc + x) (256 * 0 + b) from rfl]
  rw [fromBytesBE_acc]
  ring

/-- Unfolding equation of `packBits` on a nonempty bit list. -/
lemma packBits_eq (l : List Bool) (hl : l ≠ []) :
    packBits l = byteVal (l.take 8) :: packBits (l.drop 8) := by
  unfold packBits
  rw [chunkList_eq 8 (by norm_num) l hl]
  simp

/-- Packing a byte-aligned bit list and reading the bytes back
big-endian yields the big-endian value of the bits. -/
lemma fromBytesBE_packBits :
    ∀ (n : ℕ) (l : List Bool), l.length = 8 * n →
      fromBytesBE (packBits l) = bitsToNat l := by
  intro n
  induction n with
  | zero =>
    intro l hl
    have hnil : l = [] := List.eq_nil_of_length_eq_zero (by simpa using hl)
    subst hnil
    simp [packBits, chunkList, fromBytesBE, bitsToNat]
  | succ m ih =>
    intro l hl
    have hne : l ≠ [] := by
      intro hcon
      subst hcon
      simp only [List.length_nil] at hl
      omega
    rw [packBits_eq l hne, fromBytesBE_cons]
    rw [ih (l.drop 8) (by simp only [List.length_drop]; omega)]
    have hlen : (packBits (l.drop 8)).length = m := by
      unfold packBits
      rw [List.length_map]
      exact chunkList_length_mul 8 (by norm_num) m _
        (by simp only [List.length_drop]; omega)
    rw [hlen]
    have htl : (l.take 8).length = 8 := by
      rw [List.length_take]
      omega
    rw [byteVal, htl]
    norm_num
    conv_rhs => rw [← List.take_append_drop 8 l]
    rw [bitsToNat_append]
    have hdl : (l.drop 8).length = 8 * m := by
      simp only [List.length_drop]
      omega
    rw [hdl]
    congr 1
    congr 1
    rw [show (256 : ℕ) = 2 ^ 8 from rfl, ← pow_mul]

/-! ### Closed form of the header-driven decode loop -/

/-- Outcome of the decode loop as a function of the full streams of
majority bits and mean margins (one entry per group). -/
def decodeOutcome (mb : List Bool) (mm : List ℚ) :
    Except WErr (List Bool × List ℚ × Option ℕ) :=
  if mb.length < 32 then .ok (mb, mm, none)
  else if MAX_MESSAGE_BYTES < bitsToNat (mb.take 32) then .error .corruptHeader
  else if 8 * (4 + bitsToNat (mb.take 32) + 4) ≤ mb.length then
    .ok (mb.take (8 * (4 + bitsToNat (mb.take 32) + 4)),
      mm.take (8 * (4 + bitsToNat (mb.take 32) + 4)),
      some (8 * (4 + bitsToNat (mb.take 32) + 4)))
  else .ok (mb, mm, some (8 * (4 + bitsToNat (mb.take 32) + 4)))

lemma decodeLoop_some (oracle : ℕ → Bool × ℚ) (r e : ℕ) :
    ∀ (gs : List (List ℕ)) (bits : List Bool) (margins : List ℚ),
      bits.length < e → margins.length = bits.length →
      decodeLoop oracle r gs bits margins (some e) =
        (if e ≤ (bits ++ groupBits oracle r gs).length then
          Except.ok ((bits ++ groupBits oracle r gs).take e,
            (margins ++ groupMargins oracle r gs).take e, some e)
        else
          Except.ok (bits ++ groupBits oracle r gs,
            margins ++ groupMargins oracle r gs, some e)) := by
  intro gs
  induction gs with
  | nil =>
    intro bits margins hb hm
    simp only [decodeLoop, groupBits, groupMargins, List.map_nil, List.append_nil]
    rw [if_neg (by omega)]
  | cons g rest ih =>
    intro bits margins hb hm
    simp only [decodeLoop]
    by_cases hbr : e ≤ bits.length + 1
    · have he : e = bits.length + 1 := by omega
      rw [if_pos (by simp only [List.length_append, List.length_cons,
        List.length_nil]; omega)]
      rw [groupBits_cons, groupMargins_cons]
      rw [if_pos (by simp only [List.length_append, List.length_cons]; omega)]
      have t1 : (bits ++ (groupStep oracle r g).1 :: groupBits oracle r rest).take e
          = bits ++ [(groupStep oracle r g).1] := by
        rw [he]
        simpa using @List.take_append Bool bits
          ((groupStep oracle r g).1 :: groupBits oracle r rest) 1
      have t2 : (margins ++ (groupStep oracle r g).2 :: groupMargins oracle r rest).take e
          = margins ++ [(groupStep oracle r g).2] := by
        rw [he, show bits.length + 1 = margins.length + 1 from by omega]
        simpa using @List.take_append ℚ margins
          ((groupStep oracle r g).2 :: groupMargins oracle r rest) 1
      rw [t1, t2]
    · rw [if_neg (by simp only [List.length_append, List.length_cons,
        List.length_nil]; omega)]
      rw [ih (bits ++ [(groupStep oracle r g).1]) (margins ++ [(groupStep oracle r g).2])
        (by simp only [List.length_append, List.length_cons, List.length_nil]; omega)
        (by simp only [List.length_append, List.length_cons, List.length_nil]; omega)]
      rw [groupBits_cons, groupMargins_cons]
      have hb2 : (bits ++ [(groupStep oracle r g).1]) ++ groupBits oracle r rest
          = bits ++ (groupStep oracle r g).1 :: groupBits oracle r rest := by simp
      have hm2 : (margins ++ [(groupStep oracle r g).2]) ++ groupMargins oracle r rest
          = margins ++ (groupStep oracle r g).2 :: groupMargins oracle r rest := by simp
      rw [hb2, hm2]

lemma decodeLoop_none (oracle : ℕ → Bool × ℚ) (r : ℕ) :
    ∀ (gs : List (List ℕ)) (bits : List Bool) (margins : List ℚ),
      bits.length < 32 → margins.length = bits.length →
      decodeLoop oracle r gs bits margins none =
        decodeOutcome (bits ++ groupBits oracle r gs) (margins ++ groupMargins oracle r gs) := by
  intro gs
  induction gs with
  | nil =>
    intro bits margins hb hm
    simp only [decodeLoop, groupBits, groupMargins, List.map_nil, List.append_nil,
      decodeOutcome]
    rw [if_pos (by omega)]
  | cons g rest ih =>
    intro bits margins hb hm
    simp only [decodeLoop]
    have hlen1 : (bits ++ [(groupStep oracle r g).1]).length = bits.length + 1 := by simp
    have hlen2 : (margins ++ [(groupStep oracle r g).2]).length = margins.length + 1 := by simp
    by_cases h32 : 32 ≤ bits.length + 1
    · have he : bits.length + 1 = 32 := by omega
      rw [if_pos (by omega)]
      rw [groupBits_cons, groupMargins_cons]
      have t1 : (bits ++ (groupStep oracle r g).1 :: groupBits oracle r rest).take 32
          = bits ++ [(groupStep oracle r g).1] := by
        rw [← he]
        simpa using @List.take_append Bool bits
          ((groupStep oracle r g).1 :: groupBits oracle r rest) 1
      have t0 : (bits ++ [(groupStep oracle r g).1]).take 32
          = bits ++ [(groupStep oracle r g).1] := by
        apply List.take_of_length_le
        omega
      have hlen3 : (bits ++ (groupStep oracle r g).1 :: groupBits oracle r rest).length
          = 32 + (groupBits oracle r rest).length := by
        simp only [List.length_append, List.length_cons]
        omega
      rw [decodeOutcome]
      rw [if_neg (show ¬ (bits ++ (groupStep oracle r g).1 :: groupBits oracle r rest).length < 32 from by omega)]
      rw [t1, t0]
      by_cases hcorrupt : MAX_MESSAGE_BYTES
          < bitsToNat (bits ++ [(groupStep oracle r g).1])
      · rw [if_pos hcorrupt, if_pos hcorrupt]
      · rw [if_neg hcorrupt, if_neg hcorrupt]
        rw [if_neg (show ¬ 8 * (4 + bitsToNat (bits ++ [(groupStep oracle r g).1]) + 4) ≤ (bits ++ [(groupStep oracle r g).1]).length from by omega)]
        rw [decodeLoop_some oracle r _ rest (bits ++ [(groupStep oracle r g).1])
          (margins ++ [(groupStep oracle r g).2]) (by omega) (by omega)]
        have hb2 : (bits ++ [(groupStep oracle r g).1]) ++ groupBits oracle r rest
            = bits ++ (groupStep oracle r g).1 :: groupBits oracle r rest := by simp
        have hm2 : (margins ++ [(groupStep oracle r g).2]) ++ groupMargins oracle r rest
            = margins ++ (groupStep oracle r g).2 :: groupMargins oracle r rest := by simp
        rw [hb2, hm2]
    · rw [if_neg (by omega)]
      rw [ih (bits ++ [(groupStep oracle r g).1]) (margins ++ [(groupStep oracle r g).2])
        (by omega) (by omega)]
      rw [groupBits_cons, groupMargins_cons]
      have hb2 : (bits ++ [(groupStep oracle r g).1]) ++ groupBits oracle r rest
          = bits ++ (groupStep oracle r g).1 :: groupBits oracle r rest := by simp
      have hm2 : (margins ++ [(groupStep oracle r g).2]) ++ groupMargins oracle r rest
          = margins ++ (groupStep oracle r g).2 :: groupMargins oracle r rest := by simp
      rw [hb2, hm2]

/-- Closed form of the decode loop from an empty accumulator. -/
lemma decodeLoop_run (oracle : ℕ → Bool × ℚ) (r : ℕ) (gs : List (List ℕ)) :
    decodeLoop oracle r gs [] [] none
      = decodeOutcome (groupBits oracle r gs) (groupMargins oracle r gs) := by
  simpa using decodeLoop_none oracle r gs [] [] (by simp) rfl

/-! ### Closed form of `_extract_with_replication` -/

/-- The majority-bit stream read by `_extract_with_replication`
(one bit per replication group). -/
def majorityStream (oracle : ℕ → Bool × ℚ) (perm : ℕ → ℕ → List ℕ)
    (h w seed block r : ℕ) : List Bool :=
  groupBits oracle r (extractSlotGroups perm seed (numBlocksOf h w block) r)

/-- The mean-margin stream read by `_extract_with_replication`. -/
def marginStream (oracle : ℕ → Bool × ℚ) (perm : ℕ → ℕ → List ℕ)
    (h w seed block r : ℕ) : List ℚ :=
  groupMargins oracle r (extractSlotGroups perm seed (numBlocksOf h w block) r)

/-- The successful extraction record as a function of the majority-bit
stream, the margin stream and the replication. -/
def extractSuccess (mb : List Bool) (mm : List ℚ) (r : ℕ) : ExtractOk :=
  { message := ((packBits (mb.take (8 * (4 + bitsToNat (mb.take 32) + 4)))).drop 4).take
      (bitsToNat (mb.take 32))
    bits_read := 8 * (4 + bitsToNat (mb.take 32) + 4)
    crc_ok := decide (crc32 (((packBits (mb.take (8 * (4 + bitsToNat (mb.take 32) + 4)))).drop 4).take
        (bitsToNat (mb.take 32)))
      = fromBytesBE (((packBits (mb.take (8 * (4 + bitsToNat (mb.take 32) + 4)))).drop
          (4 + bitsToNat (mb.take 32))).take 4))
    message_length := bitsToNat (mb.take 32)
    replication := r
    avg_margin := (mm.take (8 * (4 + bitsToNat (mb.take 32) + 4))).sum
      / ((8 * (4 + bitsToNat (mb.take 32) + 4) : ℕ) : ℚ) }

/-- Length of the majority-bit stream: one bit per group, and there are
exactly `num_blocks // replication` groups. -/
lemma majorityStream_length (oracle : ℕ → Bool × ℚ) (perm : ℕ → ℕ → List ℕ)
    (h w seed block r : ℕ) (hr : 0 < r)
    (hperm : (perm seed (numBlocksOf h w block)).length = numBlocksOf h w block) :
    (majorityStream oracle perm h w seed block r).length = numBlocksOf h w block / r := by
  unfold majorityStream extractSlotGroups
  rw [length_groupBits]
  apply chunkList_length_mul r hr
  rw [List.length_take, hperm]
  rw [Nat.min_eq_left (Nat.div_mul_le_self _ _)]
  ring

/-- Length of the margin stream. -/
lemma marginStream_length (oracle : ℕ → Bool × ℚ) (perm : ℕ → ℕ → List ℕ)
    (h w seed block r : ℕ) (hr : 0 < r)
    (hperm : (perm seed (numBlocksOf h w block)).length = numBlocksOf h w block) :
    (marginStream oracle perm h w seed block r).length = numBlocksOf h w block / r := by
  unfold marginStream extractSlotGroups
  rw [length_groupMargins]
  apply chunkList_length_mul r hr
  rw [List.length_take, hperm]
  rw [Nat.min_eq_left (Nat.div_mul_le_self _ _)]
  ring

/-- Closed form of `_extract_with_replication` under valid geometry:
the result is fully determined by the majority-bit and margin streams. -/
lemma extractWithReplication_eq (oracle : ℕ → Bool × ℚ) (perm : ℕ → ℕ → List ℕ)
    (h w seed block r : ℕ) (hr : 0 < r)
    (hh : block ≤ evenPad h) (hw : block ≤ evenPad w)
    (hperm : (perm seed (numBlocksOf h w block)).length = numBlocksOf h w block)
    (hro : r ≤ numBlocksOf h w block) :
    extractWithReplication oracle perm h w seed block r =
      (if (majorityStream oracle perm h w seed block r).length < 32 then
        .error .missingHeader
      else if MAX_MESSAGE_BYTES
          < bitsToNat ((majorityStream oracle perm h w seed block r).take 32) then
        .error .corruptHeader
      else if (majorityStream oracle perm h w seed block r).length
          < 8 * (4 + bitsToNat ((majorityStream oracle perm h w seed block r).take 32) + 4) then
        .error .insufficientData
      else
        .ok (extractSuccess (majorityStream oracle perm h w seed block r)
          (marginStream oracle perm h w seed block r) r)) := by
  have hG1 : 1 ≤ numBlocksOf h w block / r := (Nat.one_le_div_iff hr).mpr hro
  have hmb : majorityStream oracle perm h w seed block r
      = groupBits oracle r (chunkList r ((perm seed (numBlocksOf h w block)).take
          (numBlocksOf h w block / r * r))) := rfl
  have hmm : marginStream oracle perm h w seed block r
      = groupMargins oracle r (chunkList r ((perm seed (numBlocksOf h w block)).take
          (numBlocksOf h w block / r * r))) := rfl
  have hmbl := majorityStream_length oracle perm h w seed block r hr hperm
  have hmml := marginStream_length oracle perm h w seed block r hr hperm
  simp only [extractWithReplication]
  rw [if_neg (show ¬ (evenPad h < block ∨ evenPad w < block) from by omega)]
  rw [if_neg (show ¬ numBlocksOf h w block / r * r = 0 from
    Nat.mul_ne_zero (by omega) (by omega))]
  rw [decodeLoop_run, ← hmb, ← hmm]
  by_cases hlen32 : (majorityStream oracle perm h w seed block r).length < 32
  · rw [decodeOutcome, if_pos hlen32, if_pos hlen32]
  · rw [decodeOutcome, if_neg hlen32, if_neg hlen32]
    by_cases hcorrupt : MAX_MESSAGE_BYTES
        < bitsToNat ((majorityStream oracle perm h w seed block r).take 32)
    · rw [if_pos hcorrupt, if_pos hcorrupt]
    · rw [if_neg hcorrupt, if_neg hcorrupt]
      set mb := majorityStream oracle perm h w seed block r with hmbs
      set mm := marginStream oracle perm h w seed block r with hmms
      set H := bitsToNat (mb.take 32) with hH
      set E := 8 * (4 + H + 4) with hE
      by_cases hshort : mb.length < E
      · rw [if_neg (show ¬ E ≤ mb.length from by omega)]
        rw [if_pos hshort]
        dsimp only
        rw [if_pos hshort]
      · rw [if_pos (show E ≤ mb.length from by omega)]
        rw [if_neg hshort]
        dsimp only
        have htt : (mb.take E).length = E := by
          rw [List.length_take]
          omega
        rw [if_neg (show ¬ (mb.take E).length < E from by omega)]
        have htake2 : (mb.take E).take E = mb.take E := by
          rw [List.take_take, Nat.min_self]
        have h32take : (mb.take E).take 32 = mb.take 32 := by
          rw [List.take_take]
          congr 1
          omega
        have hpack4 : (packBits (mb.take E)).take 4 = packBits (mb.take 32) := by
          unfold packBits
          rw [← List.map_take, chunkList_take 8 (by norm_num) 4 (mb.take E)]
          rw [show 4 * 8 = 32 from rfl, h32take]
        have hlen32t : (mb.take 32).length = 32 := by
          rw [List.length_take]
          omega
        have hML : fromBytesBE ((packBits (mb.take E)).take 4) = H := by
          rw [hpack4, fromBytesBE_packBits 4 (mb.take 32) (by rw [hlen32t])]
        have hmmtl : (mm.take E).length = E := by
          rw [List.length_take]
          omega
        have hmmne : mm.take E ≠ [] := by
          intro hc
          have hlc := congrArg List.length hc
          rw [hmmtl] at hlc
          simp only [List.length_nil] at hlc
          omega
        rw [htake2, hML]
        rw [if_neg hmmne, hmmtl]
        simp only [extractSuccess]

/-! ### Concrete instances used in witnesses and counterexamples -/

/-- Concrete block oracle: blocks 189-191 read as bit 1 with margin 0,
every other block as bit 0 with margin 0. -/
def oracleCx (i : ℕ) : Bool × ℚ := (decide (189 ≤ i ∧ i < 192), 0)

/-- Concrete stand-in for the seeded permutation: the identity order
(a valid permutation of `0..n`). -/
def permId (_seed n : ℕ) : List ℕ := List.range n

/-! ### C3: header-driven termination -/

/-- On success, groups beyond `expected_total_bits` never influence the
decode loop: running it on just the first `expected_total_bits` groups
gives the same result. -/
lemma decodeLoop_take_eq (oracle : ℕ → Bool × ℚ) (r : ℕ) (gs : List (List ℕ))
    (hlen32 : ¬ (groupBits oracle r gs).length < 32)
    (hfit : 8 * (4 + bitsToNat ((groupBits oracle r gs).take 32) + 4)
      ≤ (groupBits oracle r gs).length) :
    decodeLoop oracle r
        (gs.take (8 * (4 + bitsToNat ((groupBits oracle r gs).take 32) + 4))) [] [] none
      = decodeLoop oracle r gs [] [] none := by
  rw [decodeLoop_run, decodeLoop_run]
  set mb := groupBits oracle r gs with hmbd
  set mm := groupMargins oracle r gs with hmmd
  set H := bitsToNat (mb.take 32) with hHd
  set E := 8 * (4 + H + 4) with hEd
  have hgbt : groupBits oracle r (gs.take E) = mb.take E := by
    rw [hmbd]
    unfold groupBits
    rw [List.map_take]
  have hgmt : groupMargins oracle r (gs.take E) = mm.take E := by
    rw [hmmd]
    unfold groupMargins
    rw [List.map_take]
  rw [hgbt, hgmt]
  have hEl : (mb.take E).length = E := by
    rw [List.length_take]
    omega
  rw [decodeOutcome, decodeOutcome]
  rw [if_neg (show ¬ (mb.take E).length < 32 from by omega), if_neg hlen32]
  have h32t : (mb.take E).take 32 = mb.take 32 := by
    rw [List.take_take]
    congr 1
    omega
  rw [h32t]
  by_cases hc : MAX_MESSAGE_BYTES < bitsToNat (mb.take 32)
  · rw [if_pos (show MAX_MESSAGE_BYTES < H from hc), if_pos (show MAX_MESSAGE_BYTES < H from hc)]
  · rw [if_neg (show ¬ MAX_MESSAGE_BYTES < H from hc), if_neg (show ¬ MAX_MESSAGE_BYTES < H from hc)]
    rw [if_pos (show E ≤ (mb.take E).length from by omega), if_pos (show E ≤ mb.length from hfit)]
    rw [List.take_take, Nat.min_self, List.take_take, Nat.min_self]

/-- C3: header-driven termination of extraction.  Under valid geometry,
with `G = num_blocks // replication` the number of groups and `H` the
big-endian value of the first 32 majority bits: extraction fails with
`MissingHeader` exactly when `G < 32`; with `CorruptHeader` exactly when
32 bits exist and `H > 4096` (raised inside the loop, before any byte
slicing); with `InsufficientData` exactly when the header is valid but
`G < 8*(4+H+4)`; otherwise it succeeds reading exactly
`expected_total_bits = 8*(4+H+4)` bits, re-deriving `message_length = H`
from them, and consuming no group beyond the first `expected_total_bits`. -/
theorem header_driven_termination (oracle : ℕ → Bool × ℚ) (perm : ℕ → ℕ → List ℕ)
    (h w seed block r : ℕ) (hr : 0 < r)
    (hh : block ≤ evenPad h) (hw : block ≤ evenPad w)
    (hperm : (perm seed (numBlocksOf h w block)).length = numBlocksOf h w block)
    (hro : r ≤ numBlocksOf h w block) :
    (extractWithReplication oracle perm h w seed block r = .error .missingHeader
      ↔ numBlocksOf h w block / r < 32) ∧
    (extractWithReplication oracle perm h w seed block r = .error .corruptHeader
      ↔ 32 ≤ numBlocksOf h w block / r ∧
        4096 < bitsToNat ((majorityStream oracle perm h w seed block r).take 32)) ∧
    (extractWithReplication oracle perm h w seed block r = .error .insufficientData
      ↔ 32 ≤ numBlocksOf h w block / r ∧
        bitsToNat ((majorityStream oracle perm h w seed block r).take 32) ≤ 4096 ∧
        numBlocksOf h w block / r
          < 8 * (4 + bitsToNat ((majorityStream oracle perm h w seed block r).take 32) + 4)) ∧
    (32 ≤ numBlocksOf h w block / r →
      bitsToNat ((majorityStream oracle perm h w seed block r).take 32) ≤ 4096 →
      8 * (4 + bitsToNat ((majorityStream oracle perm h w seed block r).take 32) + 4)
          ≤ numBlocksOf h w block / r →
      extractWithReplication oracle perm h w seed block r
          = .ok (extractSuccess (majorityStream oracle perm h w seed block r)
            (marginStream oracle perm h w seed block r) r) ∧
      (extractSuccess (majorityStream oracle perm h w seed block r)
          (marginStream oracle perm h w seed block r) r).bits_read
        = 8 * (4 + bitsToNat ((majorityStream oracle perm h w seed block r).take 32) + 4) ∧
      (extractSuccess (majorityStream oracle perm h w seed block r)
          (marginStream oracle perm h w seed block r) r).message_length
        = bitsToNat ((majorityStream oracle perm h w seed block r).take 32) ∧
      decodeLoop oracle r ((extractSlotGroups perm seed (numBlocksOf h w block) r).take
          (8 * (4 + bitsToNat ((majorityStream oracle perm h w seed block r).take 32) + 4)))
          [] [] none
        = decodeLoop oracle r (extractSlotGroups perm seed (numBlocksOf h w block) r)
          [] [] none) := by
  have heq := extractWithReplication_eq oracle perm h w seed block r hr hh hw hperm hro
  have hmbl := majorityStream_length oracle perm h w seed block r hr hperm
  set mb := majorityStream oracle perm h w seed block r with hmbs
  set H := bitsToNat (mb.take 32) with hH
  set E := 8 * (4 + H + 4) with hE
  by_cases h1 : numBlocksOf h w block / r < 32
  · have hres : extractWithReplication oracle perm h w seed block r = .error .missingHeader := by
      rw [heq, if_pos (by omega)]
    refine ⟨by simp [hres, h1], ?_, ?_, by intro h32; omega⟩
    · rw [hres]
      constructor
      · intro hcon
        simp at hcon
      · intro hcon
        omega
    · rw [hres]
      constructor
      · intro hcon
        simp at hcon
      · intro hcon
        omega
  · by_cases h2 : 4096 < H
    · have hres : extractWithReplication oracle perm h w seed block r = .error .corruptHeader := by
        rw [heq, if_neg (by omega), if_pos (show MAX_MESSAGE_BYTES < H from h2)]
      refine ⟨?_, by simp [hres, h2]; omega, ?_, by intro _ hc; omega⟩
      · rw [hres]
        constructor
        · intro hcon
          simp at hcon
        · intro hcon
          omega
      · rw [hres]
        constructor
        · intro hcon
          simp at hcon
        · intro hcon
          omega
    · by_cases h3 : numBlocksOf h w block / r < E
      · have hres : extractWithReplication oracle perm h w seed block r
            = .error .insufficientData := by
          rw [heq, if_neg (by omega), if_neg (show ¬ MAX_MESSAGE_BYTES < H from h2),
            if_pos (by omega)]
        refine ⟨?_, ?_, by simp [hres]; omega, by intro _ _ hc; omega⟩
        · rw [hres]
          constructor
          · intro hcon
            simp at hcon
          · intro hcon
            omega
        · rw [hres]
          constructor
          · intro hcon
            simp at hcon
          · intro hcon
            omega
      · have hres : extractWithReplication oracle perm h w seed block r
            = .ok (extractSuccess mb (marginStream oracle perm h w seed block r) r) := by
          rw [heq, if_neg (by omega), if_neg (show ¬ MAX_MESSAGE_BYTES < H from h2),
            if_neg (by omega)]
        refine ⟨?_, ?_, ?_, ?_⟩
        · rw [hres]
          constructor
          · intro hcon
            simp at hcon
          · intro hcon
            omega
        · rw [hres]
          constructor
          · intro hcon
            simp at hcon
          · intro hcon
            omega
        · rw [hres]
          constructor
          · intro hcon
            simp at hcon
          · intro hcon
            omega
        · intro _ _ _
          refine ⟨hres, rfl, rfl, ?_⟩
          have hgb : groupBits oracle r (extractSlotGroups perm seed (numBlocksOf h w block) r)
              = mb := rfl
          apply decodeLoop_take_eq
          · rw [hgb]
            omega
          · rw [hgb, ← hH, ← hE]
            omega

/-- Witness for `header_driven_termination`: a 28×28 frame with
`block_size = 1` and replication 3. -/
theorem header_driven_termination_witness :
    (0 < 3 ∧ 1 ≤ evenPad 28 ∧
      (permId 0 (numBlocksOf 28 28 1)).length = numBlocksOf 28 28 1 ∧
      3 ≤ numBlocksOf 28 28 1) ∧
    (extractWithReplication oracleCx permId 28 28 0 1 3 = .error .missingHeader
      ↔ numBlocksOf 28 28 1 / 3 < 32) :=
  ⟨⟨by decide, by decide, by simp [permId], by decide⟩,
    (header_driven_termination oracleCx permId 28 28 0 1 3 (by decide) (by decide)
      (by decide) (by simp [permId]) (by decide)).1⟩

/-! ### C5: confidence scoring -/

/-- C5 (amended): in every fallback extraction result, the confidence
metadata equals 1.0 when `crc_ok` holds and
`1 / (1 + exp(-avg_margin / 10))` otherwise, where `avg_margin` is the
mean of the collected group margins (the first `expected_total_bits` of
them); the decoded message is carried in the result in both cases — the
success conditions never mention the checksum. -/
theorem confidence_scoring (oracle : ℕ → Bool × ℚ) (perm : ℕ → ℕ → List ℕ)
    (h w seed block r : ℕ) (hr : 0 < r)
    (hh : block ≤ evenPad h) (hw : block ≤ evenPad w)
    (hperm : (perm seed (numBlocksOf h w block)).length = numBlocksOf h w block)
    (hro : r ≤ numBlocksOf h w block)
    (hG : 32 ≤ numBlocksOf h w block / r)
    (hhdr : bitsToNat ((majorityStream oracle perm h w seed block r).take 32) ≤ 4096)
    (hfit : 8 * (4 + bitsToNat ((majorityStream oracle perm h w seed block r).take 32) + 4)
      ≤ numBlocksOf h w block / r) :
    ∃ out, extractWithReplication oracle perm h w seed block r = .ok out ∧
      confidenceOf out.crc_ok out.avg_margin
        = (if out.crc_ok then (1 : ℝ)
          else 1 / (1 + Real.exp (-((out.avg_margin : ℝ) / 10)))) ∧
      out.avg_margin = ((marginStream oracle perm h w seed block r).take
          (8 * (4 + bitsToNat ((majorityStream oracle perm h w seed block r).take 32) + 4))).sum
        / ((8 * (4 + bitsToNat ((majorityStream oracle perm h w seed block r).take 32) + 4) : ℕ) : ℚ) ∧
      out.message = ((packBits ((majorityStream oracle perm h w seed block r).take
          (8 * (4 + bitsToNat ((majorityStream oracle perm h w seed block r).take 32) + 4)))).drop 4).take
        (bitsToNat ((majorityStream oracle perm h w seed block r).take 32)) := by
  have hmain := (header_driven_termination oracle perm h w seed block r hr hh hw hperm hro).2.2.2
    hG hhdr hfit
  refine ⟨_, hmain.1, rfl, rfl, rfl⟩

/-- Witness for `confidence_scoring`: the 28×28 frame, `block_size = 1`,
replication 3 run, whose 65 groups decode a zero-length header. -/
theorem confidence_scoring_witness :
    (0 < 3 ∧ 32 ≤ numBlocksOf 28 28 1 / 3 ∧
      bitsToNat ((majorityStream oracleCx permId 28 28 0 1 3).take 32) ≤ 4096 ∧
      8 * (4 + bitsToNat ((majorityStream oracleCx permId 28 28 0 1 3).take 32) + 4)
        ≤ numBlocksOf 28 28 1 / 3) ∧
    (∃ out, extractWithReplication oracleCx permId 28 28 0 1 3 = .ok out ∧
      confidenceOf out.crc_ok out.avg_margin
        = (if out.crc_ok then (1 : ℝ)
          else 1 / (1 + Real.exp (-((out.avg_margin : ℝ) / 10)))) ∧
      out.avg_margin = ((marginStream oracleCx permId 28 28 0 1 3).take
          (8 * (4 + bitsToNat ((majorityStream oracleCx permId 28 28 0 1 3).take 32) + 4))).sum
        / ((8 * (4 + bitsToNat ((majorityStream oracleCx permId 28 28 0 1 3).take 32) + 4) : ℕ) : ℚ) ∧
      out.message = ((packBits ((majorityStream oracleCx permId 28 28 0 1 3).take
          (8 * (4 + bitsToNat ((majorityStream oracleCx permId 28 28 0 1 3).take 32) + 4)))).drop 4).take
        (bitsToNat ((majorityStream oracleCx permId 28 28 0 1 3).take 32))) :=
  ⟨⟨by decide, by decide, by decide, by decide⟩,
    confidence_scoring oracleCx permId 28 28 0 1 3 (by decide) (by decide) (by decide)
      (by simp [permId]) (by decide) (by decide) (by decide) (by decide)⟩

/-- Counterexample for C5 as frozen: on the accelerated decode branch
(lines 429-435) a checksum failure yields confidence 0.0, not the
sigmoid score.  The recovered payload `00 00 00 00 00 00 00 01`
declares an empty message with checksum 1, while `crc32("") = 0`, so
`crc_ok` is false; the result's confidence is 0, whereas the sigmoid
formula at the result's (empty) margin average 0 gives 1/2. -/
theorem confidence_scoring_counterexample :
    okResult (extract (.recovered [0, 0, 0, 0, 0, 0, 0, 1]) oracleCx permId 28 28 0 1)
      = some (.imw [] false 0) ∧
    resultConfidence (.imw [] false 0) = 0 ∧
    confidenceOf false 0 = 1 / 2 ∧
    resultConfidence (.imw [] false 0) ≠ confidenceOf false 0 := by
  refine ⟨by decide, by simp [resultConfidence], ?_, ?_⟩
  · simp [confidenceOf, Real.exp_zero]
    norm_num
  · simp [resultConfidence, confidenceOf, Real.exp_zero]
    norm_num

/-! ### C2 and C10: fallback backend selection -/

/-- The only error the decode loop itself raises is `CorruptHeader`. -/
lemma decodeLoop_error (oracle : ℕ → Bool × ℚ) (r : ℕ) :
    ∀ (gs : List (List ℕ)) (bits : List Bool) (margins : List ℚ)
      (expected : Option ℕ) (e : WErr),
      decodeLoop oracle r gs bits margins expected = .error e → e = .corruptHeader := by
  intro gs
  induction gs with
  | nil =>
    intro bits margins expected e hcon
    simp [decodeLoop] at hcon
  | cons g rest ih =>
    intro bits margins expected e hcon
    cases expected with
    | none =>
      simp only [decodeLoop] at hcon
      by_cases h32 : 32 ≤ (bits ++ [(groupStep oracle r g).1]).length
      · rw [if_pos h32] at hcon
        by_cases hc : MAX_MESSAGE_BYTES
            < bitsToNat ((bits ++ [(groupStep oracle r g).1]).take 32)
        · rw [if_pos hc] at hcon
          injection hcon with h2
          exact h2.symm
        · rw [if_neg hc] at hcon
          by_cases hbrk : 8 * (4 + bitsToNat ((bits ++ [(groupStep oracle r g).1]).take 32) + 4)
              ≤ (bits ++ [(groupStep oracle r g).1]).length
          · rw [if_pos hbrk] at hcon
            simp at hcon
          · rw [if_neg hbrk] at hcon
            exact ih _ _ _ _ hcon
      · rw [if_neg h32] at hcon
        exact ih _ _ _ _ hcon
    | some e0 =>
      simp only [decodeLoop] at hcon
      by_cases hbrk : e0 ≤ (bits ++ [(groupStep oracle r g).1]).length
      · rw [if_pos hbrk] at hcon
        simp at hcon
      · rw [if_neg hbrk] at hcon
        exact ih _ _ _ _ hcon

/-- `_extract_with_replication` never raises the bare
"Failed to recover watermark." error. -/
lemma extractWithReplication_ne_failed (oracle : ℕ → Bool × ℚ) (perm : ℕ → ℕ → List ℕ)
    (h w seed block r : ℕ) :
    extractWithReplication oracle perm h w seed block r ≠ .error .failedToRecover := by
  intro hcon
  simp only [extractWithReplication] at hcon
  by_cases h1 : evenPad h < block ∨ evenPad w < block
  · rw [if_pos h1] at hcon
    simp at hcon
  · rw [if_neg h1] at hcon
    by_cases h2 : numBlocksOf h w block / r * r = 0
    · rw [if_pos h2] at hcon
      simp at hcon
    · rw [if_neg h2] at hcon
      cases hdl : decodeLoop oracle r
          (chunkList r ((perm seed (numBlocksOf h w block)).take
            (numBlocksOf h w block / r * r))) [] [] none with
      | error e0 =>
        rw [hdl] at hcon
        have hce := decodeLoop_error oracle r _ [] [] none e0 hdl
        subst hce
        simp at hcon
      | ok triple =>
        rw [hdl] at hcon
        obtain ⟨bits, margins, expected⟩ := triple
        cases expected with
        | none => simp at hcon
        | some e0 =>
          dsimp only at hcon
          by_cases hlen : bits.length < e0
          · rw [if_pos hlen] at hcon
            simp at hcon
          · rw [if_neg hlen] at hcon
            simp at hcon

/-- C10: the terminal bare `raise WatermarkingError("Failed to recover
watermark.")` after the replication loop in `extract` (line 448) is
unreachable: the loop runs at least once, each failing iteration records
its error in `last_error`, and no fallback attempt itself produces the
bare generic error, so for every input the fallback section returns a
result or re-raises a recorded error, never the generic one. -/
theorem generic_raise_unreachable (oracle : ℕ → Bool × ℚ) (perm : ℕ → ℕ → List ℕ)
    (h w seed block : ℕ) :
    extractFallbackLoop oracle perm h w seed block ≠ .error .failedToRecover := by
  intro hcon
  rw [show extractFallbackLoop oracle perm h w seed block
      = fallbackAttempts oracle perm h w seed block [3, 2, 1] none from rfl] at hcon
  simp only [fallbackAttempts] at hcon
  cases h3 : extractWithReplication oracle perm h w seed block 3 with
  | ok out =>
    rw [h3] at hcon
    simp at hcon
  | error e3 =>
    rw [h3] at hcon
    cases h2 : extractWithReplication oracle perm h w seed block 2 with
    | ok out =>
      rw [h2] at hcon
      simp at hcon
    | error e2 =>
      rw [h2] at hcon
      cases h1 : extractWithReplication oracle perm h w seed block 1 with
      | ok out =>
        rw [h1] at hcon
        simp at hcon
      | error e1 =>
        rw [h1] at hcon
        simp only [fallbackAttempts] at hcon
        injection hcon with hc1
        exact extractWithReplication_ne_failed oracle perm h w seed block 1 (hc1 ▸ h1)

/-- C2 (amended): with the accelerated decoder absent or failing,
`extract` runs the fallback hypotheses `replication = 3, 2, 1` in that
strict order and returns the result of the first hypothesis that
completes without raising — regardless of its `crc_ok` flag; if all
three raise, it re-raises the last error encountered (the
replication-1 error). -/
theorem decode_backend_selection (oracle : ℕ → Bool × ℚ) (perm : ℕ → ℕ → List ℕ)
    (h w seed block : ℕ) :
    extract .absent oracle perm h w seed block
      = (extractFallbackLoop oracle perm h w seed block).map .fallback ∧
    extract .failed oracle perm h w seed block
      = (extractFallbackLoop oracle perm h w seed block).map .fallback ∧
    extractFallbackLoop oracle perm h w seed block
      = (match extractWithReplication oracle perm h w seed block 3 with
        | .ok out => .ok out
        | .error _ =>
          match extractWithReplication oracle perm h w seed block 2 with
          | .ok out => .ok out
          | .error _ =>
            match extractWithReplication oracle perm h w seed block 1 with
            | .ok out => .ok out
            | .error e1 => .error e1) := by
  refine ⟨rfl, rfl, ?_⟩
  rw [show extractFallbackLoop oracle perm h w seed block
      = fallbackAttempts oracle perm h w seed block [3, 2, 1] none from rfl]
  cases h3 : extractWithReplication oracle perm h w seed block 3 with
  | ok out => simp [fallbackAttempts, h3]
  | error e3 =>
    cases h2 : extractWithReplication oracle perm h w seed block 2 with
    | ok out => simp [fallbackAttempts, h3, h2]
    | error e2 =>
      cases h1 : extractWithReplication oracle perm h w seed block 1 with
      | ok out => simp [fallbackAttempts, h3, h2, h1]
      | error e1 => simp [fallbackAttempts, h3, h2, h1]

/-- Counterexample for C2 as frozen: on a 28×28 frame with
`block_size = 1` and the identity permutation, where only blocks
189-191 carry bit 1: the replication-3 hypothesis completes with
`crc_ok = false` (it reads checksum 1 for an empty message whose CRC-32
is 0) and is returned at once, even though the replication-1 hypothesis
would complete with `crc_ok = true` — so the loop does not return "the
first hypothesis that yields `crc_ok == true`". -/
theorem decode_backend_selection_counterexample :
    okCrc (extractFallbackLoop oracleCx permId 28 28 0 1) = some false ∧
    okCrc (extractWithReplication oracleCx permId 28 28 0 1 1) = some true := by
  constructor
  · decide
  · decide

/-! ### Heap access lemmas -/

lemma allocArr_snd (heap : Heap) (v : ArrVal) : (allocArr heap v).2 = heap.arrs.length := rfl

lemma allocArr_length (heap : Heap) (v : ArrVal) :
    (allocArr heap v).1.arrs.length = heap.arrs.length + 1 := by
  simp [allocArr]

lemma writeArr_length (heap : Heap) (i : ℕ) (v : ArrVal) :
    (writeArr heap i v).arrs.length = heap.arrs.length := by
  simp [writeArr]

lemma readArrD_alloc_self (heap : Heap) (v : ArrVal) :
    readArrD (allocArr heap v).1 (allocArr heap v).2 = v := by
  simp [readArrD, allocArr, List.getElem?_concat_length]

lemma readArrD_alloc_ne (heap : Heap) (v : ArrVal) (j : ℕ) (hj : j ≠ heap.arrs.length) :
    readArrD (allocArr heap v).1 j = readArrD heap j := by
  unfold readArrD allocArr
  by_cases hlt : j < heap.arrs.length
  · rw [List.getElem?_append_left hlt]
  · rw [List.getElem?_eq_none_iff.mpr (by simp; omega),
      List.getElem?_eq_none_iff.mpr (by omega)]

lemma readArrD_write_self (heap : Heap) (i : ℕ) (v : ArrVal) (hi : i < heap.arrs.length) :
    readArrD (writeArr heap i v) i = v := by
  simp [readArrD, writeArr, List.getElem?_set_self hi]

lemma readArrD_write_ne (heap : Heap) (i : ℕ) (v : ArrVal) (j : ℕ) (hj : j ≠ i) :
    readArrD (writeArr heap i v) j = readArrD heap j := by
  simp [readArrD, writeArr, List.getElem?_set_ne (Ne.symm hj)]

lemma embedLoop_length (blocksW block : ℕ) (strength : ℚ) (llId : ℕ) :
    ∀ (pairs : List (Bool × List ℕ)) (heap : Heap),
      (embedLoop blocksW block strength llId pairs heap).arrs.length = heap.arrs.length := by
  intro pairs
  induction pairs with
  | nil => intro heap; rfl
  | cons p rest ih =>
    intro heap
    simp only [embedLoop]
    rw [ih, writeArr_length]

lemma embedLoop_read_other (blocksW block : ℕ) (strength : ℚ) (llId : ℕ) :
    ∀ (pairs : List (Bool × List ℕ)) (heap : Heap) (j : ℕ), j ≠ llId →
      readArrD (embedLoop blocksW block strength llId pairs heap) j = readArrD heap j := by
  intro pairs
  induction pairs with
  | nil => intro heap j _; rfl
  | cons p rest ih =>
    intro heap j hj
    simp only [embedLoop]
    rw [ih _ j hj, readArrD_write_ne _ _ _ j hj]

/-- While looping, the `LL_embed` cell accumulates exactly the pure fold
of `embedGroup` over the bit/group pairs. -/
lemma embedLoop_read_self (blocksW block : ℕ) (strength : ℚ) (llId : ℕ) :
    ∀ (pairs : List (Bool × List ℕ)) (heap : Heap), llId < heap.arrs.length →
      readArrD (embedLoop blocksW block strength llId pairs heap) llId
        = pairs.foldl (fun acc p => embedGroup acc blocksW block strength p.1 p.2)
            (readArrD heap llId) := by
  intro pairs
  induction pairs with
  | nil => intro heap _; rfl
  | cons p rest ih =>
    intro heap hlt
    simp only [embedLoop, List.foldl_cons]
    rw [ih _ (by rw [writeArr_length]; exact hlt)]
    rw [readArrD_write_self _ _ _ hlt]

/-- The observable embed result is a pure function of the input frame's
contents and the call arguments. -/
lemma embedRun_eq (perm : ℕ → ℕ → List ℕ) (heap : Heap) (imgId : ℕ)
    (bits : List Bool) (seed : ℕ) (strength : ℚ) (block h w : ℕ) :
    embedRun perm heap imgId bits seed strength block h w
      = embedOutputVal perm (readArrD heap imgId) bits seed strength block h w := by
  simp only [embedRun, embedFallbackProg, embedOutputVal]
  by_cases hpe : h % 2 = 0 ∧ w % 2 = 0
  · simp only [if_pos hpe]
    by_cases hsz : evenPad h < block ∨ evenPad w < block
    · simp only [if_pos hsz]
      rfl
    · simp only [if_neg hsz]
      cases hsel : selectReplication bits.length (numBlocksOf h w block) with
      | error e => simp [hsel, Except.map]
      | ok replication =>
        simp only [hsel]
        by_cases hslots : numBlocksOf h w block < bits.length * replication
        · simp only [if_pos hslots]
          rfl
        · simp only [if_neg hslots, Except.map]
          rw [readArrD_alloc_self]
          rw [readArrD_write_self]
          rw [embedLoop_read_self]
          rw [readArrD_alloc_self]
          all_goals simp only [allocArr_snd, allocArr_length, Nat.lt_succ_self]
  · simp only [if_neg hpe]
    by_cases hsz : evenPad h < block ∨ evenPad w < block
    · simp only [if_pos hsz]
      rfl
    · simp only [if_neg hsz]
      cases hsel : selectReplication bits.length (numBlocksOf h w block) with
      | error e => simp [hsel, Except.map]
      | ok replication =>
        simp only [hsel]
        by_cases hslots : numBlocksOf h w block < bits.length * replication
        · simp only [if_pos hslots]
          rfl
        · simp only [if_neg hslots, Except.map]
          rw [readArrD_alloc_self]
          rw [readArrD_write_self]
          rw [embedLoop_read_self]
          rw [readArrD_alloc_self]
          all_goals simp only [allocArr_snd, allocArr_length, Nat.lt_succ_self]

/-! ### C4 and C9: determinism and frame immutability -/

/-- `_embed_fallback` never writes to any pre-existing heap cell, and on
success the returned frame is a freshly allocated cell. -/
lemma embedFallbackProg_frame (perm : ℕ → ℕ → List ℕ) (heap : Heap) (imgId : ℕ)
    (bits : List Bool) (seed : ℕ) (strength : ℚ) (block h w : ℕ)
    (j : ℕ) (hj : j < heap.arrs.length) :
    readArrD (embedFallbackProg perm heap imgId bits seed strength block h w).1 j
      = readArrD heap j ∧
    (∀ outId meta, (embedFallbackProg perm heap imgId bits seed strength block h w).2
        = .ok (outId, meta) → heap.arrs.length ≤ outId) := by
  simp only [embedFallbackProg]
  by_cases hpe : h % 2 = 0 ∧ w % 2 = 0
  · simp only [if_pos hpe]
    by_cases hsz : evenPad h < block ∨ evenPad w < block
    · simp only [if_pos hsz]
      constructor
      · rw [readArrD_alloc_ne, readArrD_alloc_ne]
        all_goals try simp only [allocArr_snd, allocArr_length]
        all_goals omega
      · intro outId meta hcon
        simp at hcon
    · simp only [if_neg hsz]
      cases hsel : selectReplication bits.length (numBlocksOf h w block) with
      | error e =>
        simp only [hsel]
        constructor
        · rw [readArrD_alloc_ne, readArrD_alloc_ne, readArrD_alloc_ne, readArrD_alloc_ne]
          all_goals try simp only [allocArr_snd, allocArr_length]
          all_goals omega
        · intro outId meta hcon
          simp at hcon
      | ok replication =>
        simp only [hsel]
        by_cases hslots : numBlocksOf h w block < bits.length * replication
        · simp only [if_pos hslots]
          constructor
          · rw [readArrD_alloc_ne, readArrD_alloc_ne, readArrD_alloc_ne, readArrD_alloc_ne]
            all_goals try simp only [allocArr_snd, allocArr_length]
            all_goals omega
          · intro outId meta hcon
            simp at hcon
        · simp only [if_neg hslots]
          constructor
          · rw [readArrD_alloc_ne, readArrD_write_ne, readArrD_alloc_ne,
              embedLoop_read_other, readArrD_alloc_ne, readArrD_alloc_ne,
              readArrD_alloc_ne, readArrD_alloc_ne, readArrD_alloc_ne]
            all_goals try simp only [allocArr_snd, allocArr_length, writeArr_length,
              embedLoop_length]
            all_goals omega
          · intro outId meta hcon
            simp only [Except.ok.injEq, Prod.mk.injEq] at hcon
            obtain ⟨h1, _⟩ := hcon
            rw [← h1]
            simp only [allocArr_snd, allocArr_length, writeArr_length, embedLoop_length]
            omega
  · simp only [if_neg hpe]
    by_cases hsz : evenPad h < block ∨ evenPad w < block
    · simp only [if_pos hsz]
      constructor
      · rw [readArrD_alloc_ne, readArrD_alloc_ne, readArrD_alloc_ne]
        all_goals try simp only [allocArr_snd, allocArr_length]
        all_goals omega
      · intro outId meta hcon
        simp at hcon
    · simp only [if_neg hsz]
      cases hsel : selectReplication bits.length (numBlocksOf h w block) with
      | error e =>
        simp only [hsel]
        constructor
        · rw [readArrD_alloc_ne, readArrD_alloc_ne, readArrD_alloc_ne, readArrD_alloc_ne,
            readArrD_alloc_ne]
          all_goals try simp only [allocArr_snd, allocArr_length]
          all_goals omega
        · intro outId meta hcon
          simp at hcon
      | ok replication =>
        simp only [hsel]
        by_cases hslots : numBlocksOf h w block < bits.length * replication
        · simp only [if_pos hslots]
          constructor
          · rw [readArrD_alloc_ne, readArrD_alloc_ne, readArrD_alloc_ne, readArrD_alloc_ne,
              readArrD_alloc_ne]
            all_goals try simp only [allocArr_snd, allocArr_length]
            all_goals omega
          · intro outId meta hcon
            simp at hcon
        · simp only [if_neg hslots]
          constructor
          · rw [readArrD_alloc_ne, readArrD_write_ne, readArrD_alloc_ne,
              embedLoop_read_other, readArrD_alloc_ne, readArrD_alloc_ne,
              readArrD_alloc_ne, readArrD_alloc_ne, readArrD_alloc_ne, readArrD_alloc_ne]
            all_goals try simp only [allocArr_snd, allocArr_length, writeArr_length,
              embedLoop_length]
            all_goals omega
          · intro outId meta hcon
            simp only [Except.ok.injEq, Prod.mk.injEq] at hcon
            obtain ⟨h1, _⟩ := hcon
            rw [← h1]
            simp only [allocArr_snd, allocArr_length, writeArr_length, embedLoop_length]
            omega

/-- C9: `embed` never mutates its input frame.  For every valid input
frame cell, its contents after the call equal its contents before, and
the watermarked output is a freshly allocated cell distinct from the
input. -/
theorem embed_frame_immutability (perm : ℕ → ℕ → List ℕ) (heap : Heap) (imgId : ℕ)
    (message : List ℕ) (seed : ℕ) (strength : ℚ) (block h w : ℕ)
    (himg : imgId < heap.arrs.length) :
    readArrD (embedProg perm heap imgId message seed strength block h w).1 imgId
      = readArrD heap imgId ∧
    (∀ outId meta, (embedProg perm heap imgId message seed strength block h w).2
        = .ok (outId, meta) → outId ≠ imgId ∧ heap.arrs.length ≤ outId) := by
  unfold embedProg
  cases hbp : buildPayload message with
  | error e =>
    simp only [hbp]
    exact ⟨by trivial, by intro outId meta hcon; simp at hcon⟩
  | ok bits =>
    simp only [hbp]
    have hfr := embedFallbackProg_frame perm heap imgId bits seed strength block h w imgId himg
    refine ⟨hfr.1, ?_⟩
    intro outId meta hcon
    have hle := hfr.2 outId meta hcon
    exact ⟨by omega, hle⟩

/-- Witness for `embed_frame_immutability`: a one-cell heap holding the
input frame, a short message, default parameters on a 16×16 frame. -/
theorem embed_frame_immutability_witness :
    0 < (Heap.mk [ArrVal.frame [7]]).arrs.length ∧
    (readArrD (embedProg permId ⟨[ArrVal.frame [7]]⟩ 0 [42] 5 1 8 16 16).1 0
        = readArrD ⟨[ArrVal.frame [7]]⟩ 0 ∧
      (∀ outId meta, (embedProg permId ⟨[ArrVal.frame [7]]⟩ 0 [42] 5 1 8 16 16).2
          = .ok (outId, meta) → outId ≠ 0 ∧ (Heap.mk [ArrVal.frame [7]]).arrs.length ≤ outId)) :=
  ⟨by decide, embed_frame_immutability permId ⟨[ArrVal.frame [7]]⟩ 0 [42] 5 1 8 16 16 (by decide)⟩

/-- C4: determinism of `embed`.  Two embed runs over frames with equal
contents and identical `(message bits, seed, strength, block_size)`
produce identical output frames and metadata; moreover the slot
permutation is the pure function `perm (seed, num_blocks)` shared by
embedding and extraction: for `bit_count` payload bits, the embedder's
per-bit index groups are exactly the first `bit_count` groups that the
extractor reconstructs from the same seed and block count. -/
theorem embed_determinism (perm : ℕ → ℕ → List ℕ) (heap1 heap2 : Heap)
    (img1 img2 : ℕ) (bits : List Bool) (seed : ℕ) (strength : ℚ) (block h w : ℕ)
    (hread : readArrD heap1 img1 = readArrD heap2 img2)
    (nb bc r : ℕ) (hr : 0 < r) (hbc : bc ≤ nb / r) :
    embedRun perm heap1 img1 bits seed strength block h w
      = embedRun perm heap2 img2 bits seed strength block h w ∧
    embedSlotGroups perm seed nb bc r = (extractSlotGroups perm seed nb r).take bc := by
  constructor
  · rw [embedRun_eq, embedRun_eq, hread]
  · unfold embedSlotGroups extractSlotGroups
    rw [chunkList_take r hr bc]
    rw [List.take_take]
    rw [Nat.min_eq_left (Nat.mul_le_mul_right r hbc)]

/-- Witness for `embed_determinism`: two distinct heaps holding the same
frame contents in different cells, 16 payload bits, 196 blocks,
replication 3. -/
theorem embed_determinism_witness :
    (readArrD ⟨[ArrVal.frame [3]]⟩ 0
        = readArrD ⟨[ArrVal.frame [9], ArrVal.frame [3]]⟩ 1 ∧
      0 < 3 ∧ 16 ≤ 196 / 3) ∧
    (embedRun permId ⟨[ArrVal.frame [3]]⟩ 0 [true, false] 7 1 8 16 16
        = embedRun permId ⟨[ArrVal.frame [9], ArrVal.frame [3]]⟩ 1 [true, false] 7 1 8 16 16 ∧
      embedSlotGroups permId 7 196 16 3 = (extractSlotGroups permId 7 196 3).take 16) :=
  ⟨⟨by decide, by decide, by decide⟩,
    embed_determinism permId ⟨[ArrVal.frame [3]]⟩ ⟨[ArrVal.frame [9], ArrVal.frame [3]]⟩
      0 1 [true, false] 7 1 8 16 16 (by decide) 196 16 3 (by decide) (by decide)⟩
